import Mathlib

/-!
The ajson byte scanner (`buffer.go`) and document builder (`ajson.go`).

A shallow embedding of the scanner and of `Unmarshal`.

* Bytes are natural numbers below 256; a byte slice is a `List Nat`.
* A method on `*buffer` becomes a function that returns the updated buffer
  next to the values the method returns.
* An index expression `b.data[i]` that is out of range is a run-time panic in
  the source; here the enclosing function returns `none`.
* Every `for` loop of the scanner walks the cursor towards `b.length`; the
  loop functions recurse on a counter that is started at `b.length - b.index`
  and keep the loop condition of the source in their body.
* The main loop of `Unmarshal` has no such bound in the source, so it takes the
  number of iterations it may run as an explicit argument.
-/

namespace Ajson

/-! ## Constants of `buffer.go` -/

def quotes : Nat := 34
def backslash : Nat := 92
def skipS : Nat := 32
def skipN : Nat := 10
def skipR : Nat := 13
def skipT : Nat := 9
def bracketL : Nat := 91
def bracketR : Nat := 93
def bracesL : Nat := 123
def bracesR : Nat := 125

/-- The bytes of `"null"`. -/
def _null : List Nat := [110, 117, 108, 108]
/-- The bytes of `"true"`. -/
def _true : List Nat := [116, 114, 117, 101]
/-- The bytes of `"false"`. -/
def _false : List Nat := [102, 97, 108, 115, 101]

/-! ## Errors -/

/-- Modelled from the spec: the error values. The source calls `errorSymbol`
and `errorEOF`, whose definitions are not among the source files; the spec
names the two kinds `UnexpectedSymbol{byte, position}` and
`UnexpectedEnd{position}`. `EOF` is the sentinel `io.EOF` of the Go library,
which the source compares against with `==`. -/
inductive Error where
  | EOF
  | UnexpectedSymbol (c : Nat) (index : Nat)
  | UnexpectedEnd (index : Nat)
deriving DecidableEq, Repr

/-- Modelled from the spec: `errorSymbol(c, index)` builds the
`UnexpectedSymbol` error of byte `c` at position `index`. -/
def errorSymbol (c : Nat) (index : Nat) : Error := Error.UnexpectedSymbol c index

/-- Modelled from the spec: `errorEOF(index)` builds the `UnexpectedEnd` error
of position `index`. -/
def errorEOF (index : Nat) : Error := Error.UnexpectedEnd index

/-! ## The buffer -/

structure buffer where
  data : List Nat
  length : Nat
  index : Nat
deriving DecidableEq, Repr

/-- Go's builtin `copy(dst, src)`: overwrites the first
`min(len(dst), len(src))` elements of `dst` with those of `src`; the value is
the updated `dst`. -/
def copy (dst src : List Nat) : List Nat :=
  src.take dst.length ++ dst.drop (min dst.length src.length)

/-- The function `newBuffer(body, clone)`. With `clone` the source runs
`copy(body, b.data)`, whose destination is `body` and whose source is the
still empty `b.data`; `b.data` itself is never assigned on that path. -/
def newBuffer (body : List Nat) (clone : Bool) : buffer :=
  let b : buffer := { data := [], length := body.length, index := 0 }
  if clone then
    let _body := copy body b.data
    b
  else
    { b with data := body }

/-- The method `step()` of the buffer. -/
def buffer.step (b : buffer) : buffer × Option Error :=
  if b.index + 1 < b.length then
    ({ b with index := b.index + 1 }, none)
  else
    (b, some Error.EOF)

/-- The loop of `first()`. -/
def buffer.firstLoop : Nat → buffer → Option (buffer × Nat × Option Error)
  | 0, b => some (b, 0, some Error.EOF)
  | n + 1, b =>
    if b.index < b.length then
      match b.data[b.index]? with
      | none => none
      | some c =>
        if !(c == skipS || c == skipR || c == skipN || c == skipT) then
          some (b, c, none)
        else
          buffer.firstLoop n { b with index := b.index + 1 }
    else
      some (b, 0, some Error.EOF)

/-- The method `first()`: the byte it returns and the error, next to the
buffer. -/
def buffer.first (b : buffer) : Option (buffer × Nat × Option Error) :=
  buffer.firstLoop (b.length - b.index) b

/-- The method `next()` of the buffer. -/
def buffer.next (b : buffer) : Option (buffer × Nat × Option Error) :=
  match b.step with
  | (b1, some err) => some (b1, 0, some err)
  | (b1, none) => b1.first

/-- The loop of `backslash()`; the counter is `i + 1` for the loop variable
`i` of the source, so the loop condition `i >= 0` is the successor case. -/
def buffer.backslashLoop (b : buffer) : Nat → Bool → Option Bool
  | 0, result => some result
  | i + 1, result =>
    match b.data[i]? with
    | none => none
    | some c =>
      if c == Ajson.backslash then
        buffer.backslashLoop b i (!result)
      else
        some result

/-- The method `backslash()` of the buffer. -/
def buffer.backslash (b : buffer) : Option Bool :=
  b.backslashLoop b.index false

/-- The loop of `skip(s)`. -/
def buffer.skipLoop (s : Nat) : Nat → buffer → Option (buffer × Bool)
  | 0, b => some (b, false)
  | n + 1, b =>
    if b.index < b.length then
      match b.data[b.index]? with
      | none => none
      | some c =>
        if c == s then
          match b.backslash with
          | none => none
          | some r =>
            if !r then some (b, true)
            else buffer.skipLoop s n { b with index := b.index + 1 }
        else
          buffer.skipLoop s n { b with index := b.index + 1 }
    else
      some (b, false)

/-- The method `skip(s)` of the buffer. -/
def buffer.skip (b : buffer) (s : Nat) : Option (buffer × Bool) :=
  buffer.skipLoop s (b.length - b.index) b

/-- The loop of `scan(s, skip)`; `from1`, `to1` and `find` are the locals
`from`, `to` and `find` of the source. The condition
`c == s && !b.backslash()` calls `backslash()` only when `c == s`. -/
def buffer.scanLoop (s : Nat) (skip : Bool) :
    Nat → buffer → Int → Int → Bool → Option (buffer × Int × Int × Option Error)
  | 0, b, _, _, _ => some (b, -1, -1, some Error.EOF)
  | n + 1, b, from1, to1, find =>
    if b.index < b.length then
      match b.data[b.index]? with
      | none => none
      | some c =>
        match (if c == s then b.backslash.map (fun r => !r) else some Bool.false) with
        | none => none
        | some Bool.true => some ((b.step).1, from1, to1, (b.step).2)
        | some Bool.false =>
          if skip && (c == skipS || c == skipR || c == skipN || c == skipT) then
            if !find then
              buffer.scanLoop s skip n { b with index := b.index + 1 } (from1 + 1) (to1 + 1) find
            else
              buffer.scanLoop s skip n { b with index := b.index + 1 } from1 to1 find
          else
            buffer.scanLoop s skip n { b with index := b.index + 1 } from1 (to1 + 1) Bool.true
    else
      some (b, -1, -1, some Error.EOF)

/-- The method `scan(s, skip)` of the buffer. -/
def buffer.scan (b : buffer) (s : Nat) (skip : Bool) :
    Option (buffer × Int × Int × Option Error) :=
  buffer.scanLoop s skip (b.length - b.index) b b.index b.index Bool.false

/-- What `numeric()` returns once its loop is left by the loop condition. -/
def buffer.numericEnd (b : buffer) (find : Nat) : buffer × Option Error :=
  if find &&& 4 != 0 then (b, some Error.EOF) else (b, some (errorEOF b.index))

/-- The loop of `numeric()`; `find` is the bit mask of the source. -/
def buffer.numericLoop : Nat → buffer → Nat → Option (buffer × Option Error)
  | 0, b, find => some (b.numericEnd find)
  | n + 1, b, find =>
    if b.index < b.length then
      match b.data[b.index]? with
      | none => none
      | some c =>
        if c ≥ 48 && c ≤ 57 then
          buffer.numericLoop n { b with index := b.index + 1 } (find ||| 4)
        else if c == 46 then
          if find &&& 2 == 0 then
            buffer.numericLoop n { b with index := b.index + 1 } (find &&& 2)
          else
            some (b, some (errorSymbol c b.index))
        else if c == 43 || c == 45 then
          if find == 0 || find == 8 then
            buffer.numericLoop n { b with index := b.index + 1 } (find ||| 1)
          else
            some (b, some (errorSymbol c b.index))
        else if c == 101 || c == 69 then
          if find &&& 8 == 0 then
            buffer.numericLoop n { b with index := b.index + 1 } 8
          else
            some (b, some (errorSymbol c b.index))
        else
          if find &&& 4 != 0 then
            some (b, none)
          else
            some (b, some (errorSymbol c b.index))
    else
      some (b.numericEnd find)

/-- The method `numeric()` of the buffer. -/
def buffer.numeric (b : buffer) : Option (buffer × Option Error) :=
  buffer.numericLoop (b.length - b.index) b 0

/-- The method `string()` of the buffer. -/
def buffer.string (b : buffer) : Option (buffer × Option Error) :=
  match b.step with
  | (b1, some _) => some (b1, some (errorEOF b1.index))
  | (b1, none) =>
    match b1.skip quotes with
    | none => none
    | some (b2, found) =>
      if !found then some (b2, some (errorEOF b2.index)) else some (b2, none)

/-- What `word()` returns once its loop is left; `index` is the local of the
source. -/
def buffer.wordEnd (b : buffer) (word : List Nat) (index : Nat) : buffer × Option Error :=
  if index != word.length then (b, some (errorEOF b.index)) else (b, none)

/-- The loop of `word(word)`. The byte subtraction `word[index]-32` wraps
modulo 256. -/
def buffer.wordLoop (word : List Nat) : Nat → buffer → Nat → Option (buffer × Option Error)
  | 0, b, index => some (b.wordEnd word index)
  | n + 1, b, index =>
    if b.index < b.length then
      match b.data[b.index]? with
      | none => none
      | some c =>
        match word[index]? with
        | none => none
        | some w =>
          if c != w && c != (w + 256 - 32) % 256 then
            some (b, some (errorSymbol c b.index))
          else if index + 1 ≥ word.length then
            some (b.wordEnd word (index + 1))
          else
            buffer.wordLoop word n { b with index := b.index + 1 } (index + 1)
    else
      some (b.wordEnd word index)

/-- The method `word(word)` of the buffer. -/
def buffer.word (b : buffer) (word : List Nat) : Option (buffer × Option Error) :=
  buffer.wordLoop word (b.length - b.index) b 0

/-- The method `null()` of the buffer. -/
def buffer.null (b : buffer) : Option (buffer × Option Error) := b.word _null

/-- The method `true()` of the buffer. -/
def buffer.true (b : buffer) : Option (buffer × Option Error) := b.word _true

/-- The method `false()` of the buffer. -/
def buffer.false (b : buffer) : Option (buffer × Option Error) := b.word _false

/-! ## Nodes -/

/-- Modelled from the spec: the kinds of a node. The type `NodeType` and its
constants are used by `Unmarshal` and by the tests but declared in a file that
is not among the source files. -/
inductive NodeType where
  | Null
  | Numeric
  | String
  | Bool
  | Array
  | Object
deriving DecidableEq, Repr

/-- Modelled from the spec: a node. The type `Node` is declared in a file that
is not among the source files. The spec gives a node a kind, a back-reference
to its parent, the half-open byte range `borders` into the backing bytes, an
optional key and an optional index; `data` is the backing byte slice the
borders refer to. -/
inductive Node where
  | mk (parent : Option Node) (data : List Nat) (borders : Nat × Nat)
      (_type : NodeType) (key : List Nat) (index : Option Nat) : Node

/-- The parent of a node. -/
def Node.parent : Node → Option Node
  | Node.mk p _ _ _ _ _ => p

/-- The backing bytes of a node. -/
def Node.data : Node → List Nat
  | Node.mk _ d _ _ _ _ => d

/-- The borders `[start, end)` of a node. -/
def Node.borders : Node → Nat × Nat
  | Node.mk _ _ bd _ _ _ => bd

/-- Modelled from the spec: `Type()`, the kind of a node. -/
def Node.Type : Node → NodeType
  | Node.mk _ _ _ t _ _ => t

/-- The assignment `current.borders[1] = v`. -/
def Node.setEnd : Node → Nat → Node
  | Node.mk p d bd t k i, v => Node.mk p d (bd.1, v) t k i

/-- Modelled from the spec: `Source()`, the raw source text of a node, the
bytes of the backing slice between its borders. -/
def Node.Source (n : Node) : List Nat :=
  (n.data.drop n.borders.1).take (n.borders.2 - n.borders.1)

/-- Modelled from the spec: `newNode(parent, buf, _type, key, index)`, whose
definition is not among the source files. It makes a node of the given kind
under `parent` that refers to the bytes of `buf` and starts at the cursor; the
end border is assigned by the caller. -/
def newNode (parent : Option Node) (buf : buffer) (_type : NodeType) (key : List Nat)
    (index : Option Nat) : Node :=
  Node.mk parent buf.data (buf.index, 0) _type key index

/-! ## `Unmarshal` -/

/-- How a call of `Unmarshal` ends: it returns `(root, err)`, it stops with a
run-time panic, or its main loop is still running after the iterations it was
given. -/
inductive Outcome where
  | returned (root : Option Node) (err : Option Error)
  | panicked
  | running

/-- The code after the main loop (`// outer`), reached by `break` with the
current `err`; `root` is still nil when the loop is left. -/
def Unmarshal.outer (err : Option Error) (current : Option Node) : Outcome :=
  if err == some Error.EOF then
    Outcome.returned current none
  else
    Outcome.returned none err

/-- The main loop `base` of `Unmarshal`; the first argument bounds the number
of iterations. `key` and `index` are the locals of the source, which are never
assigned. -/
def Unmarshal.base (key : List Nat) (index : Option Nat) :
    Nat → buffer → Option Node → Outcome
  | 0, _, _ => Outcome.running
  | fuel + 1, buf, current =>
    match buf.first with
    | none => Outcome.panicked
    | some (_, _, some err) => Unmarshal.outer (some err) current
    | some (buf, b, none) =>
      if b == bracesL then
        Unmarshal.base key index fuel buf current
      else if b == bracketL then
        Unmarshal.base key index fuel buf current
      else if b == quotes then
        let current := newNode current buf NodeType.String key index
        match buf.string with
        | none => Outcome.panicked
        | some (buf, err) =>
          let current := current.setEnd (buf.index + 1)
          match err with
          | some err => Unmarshal.outer (some err) (some current)
          | none =>
            match buf.step with
            | (_, some err) => Unmarshal.outer (some err) (some current)
            | (buf, none) => Unmarshal.base key index fuel buf (some current)
      else if (b ≥ 48 && b ≤ 57) || b == 46 || b == 43 || b == 45 || b == 101 || b == 69 then
        let current := newNode current buf NodeType.Numeric key index
        match buf.numeric with
        | none => Outcome.panicked
        | some (buf, err) =>
          let current := current.setEnd buf.index
          match err with
          | some err => Unmarshal.outer (some err) (some current)
          | none => Unmarshal.base key index fuel buf (some current)
      else if b == 110 || b == 78 then
        let current := newNode current buf NodeType.Null key index
        match buf.null with
        | none => Outcome.panicked
        | some (buf, err) =>
          let current := current.setEnd (buf.index + 1)
          match err with
          | some err => Unmarshal.outer (some err) (some current)
          | none =>
            match buf.step with
            | (_, some err) => Unmarshal.outer (some err) (some current)
            | (buf, none) => Unmarshal.base key index fuel buf (some current)
      else if b == 116 || b == 84 || b == 102 || b == 70 then
        let current := newNode current buf NodeType.Bool key index
        match (if b == 116 || b == 84 then buf.true else buf.false) with
        | none => Outcome.panicked
        | some (buf, err) =>
          let current := current.setEnd (buf.index + 1)
          match err with
          | some err => Unmarshal.outer (some err) (some current)
          | none =>
            match buf.step with
            | (_, some err) => Unmarshal.outer (some err) (some current)
            | (buf, none) => Unmarshal.base key index fuel buf (some current)
      else
        Outcome.returned none (some (errorSymbol b buf.index))

/-- The function `Unmarshal(body, clone)`, given the number of iterations its
main loop may run. -/
def Unmarshal (fuel : Nat) (body : List Nat) (clone : Bool) : Outcome :=
  Unmarshal.base [] none fuel (newBuffer body clone) none

/-- The bytes of an ASCII text. -/
def ascii (s : String) : List Nat := s.toList.map Char.toNat

/-! ## The Function token of `jsonpath/tokens/function.go`

The token is a pointer in the source: a nil token is `none`. The type of the
argument tokens and the registry `ajson.Functions` are declared outside the
source files and are parameters here: `A` is the type `Arguments`, `Fn` the
non-nil values of the function type `ajson.Function` (`none` is its nil value),
and a registry is a map lookup `String → Option (Option Fn)` that gives `none`
for a key that is not in the map. `ToLower` stands for `strings.ToLower` of the
Go library. -/

namespace tokens

/-- The type `string` of Go. -/
abbrev GoString : Type := String

/-- The struct `Function`; the field `Arguments` is a pointer, nil is
`none`. -/
structure Function (A : Type) where
  Alias : String
  Arguments : Option A
deriving DecidableEq

/-- The error value `fmt.Errorf(format, arg)`. -/
inductive GoError where
  | Errorf (format : String) (arg : String)
deriving DecidableEq, Repr

/-- The function `NewFunction(alias, arguments)`, with `alias1` for the
parameter `alias`: the token and the error it returns. -/
def NewFunction {A Fn : Type} (ToLower : String → String)
    (Functions : String → Option (Option Fn)) (alias1 : String) (arguments : Option A) :
    Option (Function A) × Option GoError :=
  let alias1 := ToLower alias1
  match Functions alias1 with
  | none => (none, some (GoError.Errorf "function %q not found" alias1))
  | some _ => (some { Alias := alias1, Arguments := arguments }, none)

/-- The method `Type()`. -/
def Function.Type {A : Type} (_t : Option (Function A)) : GoString := "Function"

/-- The method `String()`; `argumentsString` is the method `String()` of the
argument tokens, called on the pointer `t.Arguments`. -/
def Function.String {A : Type} (argumentsString : Option A → GoString)
    (t : Option (Function A)) : GoString :=
  match t with
  | none => "Function(<nil>, <nil>)"
  | some t => "Function(" ++ t.Alias ++ ", " ++ argumentsString t.Arguments ++ ")"

/-- The method `Token()`. -/
def Function.Token {A : Type} (argumentsString : Option A → GoString)
    (t : Option (Function A)) : GoString :=
  Function.String argumentsString t

/-- The method `Function()`: the map index expression `ajson.Functions[t.Alias]`
gives the nil function for a key that is not in the map. -/
def Function.Function {A Fn : Type} (Functions : GoString → Option (Option Fn))
    (t : Option (Function A)) : Option Fn :=
  match t with
  | none => none
  | some t =>
    match Functions t.Alias with
    | none => none
    | some f => f

/-- The function `strings.ToLower` on ASCII text, for the examples. -/
def asciiToLower (s : GoString) : GoString := String.mk (s.toList.map Char.toLower)

end tokens

/-! ## Vocabulary of the statements -/

/-- A run of whitespace bytes: space, `\n`, `\r`, `\t`. -/
def Whitespace (l : List Nat) : Prop := ∀ x ∈ l, x = 32 ∨ x = 10 ∨ x = 13 ∨ x = 9

instance (l : List Nat) : Decidable (Whitespace l) := by
  unfold Whitespace; infer_instance

/-- The buffer is in place: its length field is the length of its data. -/
def buffer.InPlace (b : buffer) : Prop := b.length = b.data.length

/-- The bytes from the cursor on. -/
def buffer.rest (b : buffer) : List Nat := b.data.drop b.index

/-- The buffer with the cursor moved forward by `k`. -/
def buffer.advance (b : buffer) (k : Nat) : buffer := { b with index := b.index + k }

/-- The bytes `w` spell `word`, each letter in lower or in upper case; the
upper-case letter is 32 below the lower-case one. -/
def SpelledAnyCase (w word : List Nat) : Prop :=
  List.Forall₂ (fun c x => c = x ∨ c + 32 = x) w word

/-- A run of decimal digits (possibly empty). -/
def Digits (d : List Nat) : Prop := ∀ x ∈ d, 48 ≤ x ∧ x ≤ 57

instance (d : List Nat) : Decidable (Digits d) := by
  unfold Digits; infer_instance

/-- An optional sign: nothing, `+` or `-`. -/
def Sign (s : List Nat) : Prop := s = [] ∨ s = [43] ∨ s = [45]

/-- A mantissa: `digits+`, or `digits* '.' digits+`. -/
def Mantissa (m : List Nat) : Prop :=
  ∃ a b : List Nat, Digits a ∧ Digits b ∧ ((m = a ∧ a ≠ []) ∨ (m = a ++ 46 :: b ∧ b ≠ []))

/-- An optional fraction of the exponent: nothing, or `'.' digits+`. -/
def Fraction (f : List Nat) : Prop := f = [] ∨ ∃ g : List Nat, f = 46 :: g ∧ Digits g ∧ g ≠ []

/-- An optional exponent: nothing, or `e`/`E`, an optional sign, `digits+` and
an optional fraction. -/
def Exponent (e : List Nat) : Prop :=
  e = [] ∨ ∃ (m : Nat) (s d f : List Nat),
    (m = 101 ∨ m = 69) ∧ Sign s ∧ Digits d ∧ d ≠ [] ∧ Fraction f ∧ e = m :: (s ++ d ++ f)

/-- The number texts of the claim: optional sign, mantissa, optional
exponent. -/
def NumberText (N : List Nat) : Prop :=
  ∃ s m e : List Nat, Sign s ∧ Mantissa m ∧ Exponent e ∧ N = s ++ m ++ e

/-- The bit mask of `numeric()` after a byte `c` that the loop steps over, read
off the four cases of its `switch`; `none` where the loop stops at `c` (it
reports the byte or it ends the number there). -/
def numStep (find c : Nat) : Option Nat :=
  if c ≥ 48 && c ≤ 57 then some (find ||| 4)
  else if c == 46 then (if find &&& 2 == 0 then some (find &&& 2) else none)
  else if c == 43 || c == 45 then (if find == 0 || find == 8 then some (find ||| 1) else none)
  else if c == 101 || c == 69 then (if find &&& 8 == 0 then some 8 else none)
  else none

/-- The bit mask after a run of bytes that the loop of `numeric()` steps
over. -/
def numRun : Nat → List Nat → Option Nat
  | find, [] => some find
  | find, c :: cs =>
    match numStep find c with
    | none => none
    | some find1 => numRun find1 cs

/-- The number of consecutive backslash bytes at the end of `l`, that is,
immediately before the position that follows `l`. -/
def precedingBackslashes (l : List Nat) : Nat :=
  (l.reverse.takeWhile (fun c => c == 92)).length

/-- The body of a string in which every `"` is escaped and which does not end
in an escape: every `"` byte is immediately preceded by an odd number of
consecutive backslashes, and the body ends in an even number of them. -/
def EscapedBody (body : List Nat) : Prop :=
  (∀ j : Nat, j < body.length → body[j]? = some 34 →
      precedingBackslashes (body.take j) % 2 = 1)
    ∧ precedingBackslashes body % 2 = 0

instance (body : List Nat) : Decidable (EscapedBody body) := by
  unfold EscapedBody; infer_instance

/-- The condition of `EscapedBody` for the part `todo` of a body that follows
the part `done`. -/
def EscapedAfter (done todo : List Nat) : Prop :=
  (∀ j : Nat, j < todo.length → todo[j]? = some 34 →
      precedingBackslashes (done ++ todo.take j) % 2 = 1)
    ∧ precedingBackslashes (done ++ todo) % 2 = 0

/-- The raw source text of `r`, parsed in place, gives a root of the kind of
`r` whose raw source text is that entire text. -/
def Reparses (r : Node) : Prop :=
  ∀ fuel : Nat, ∃ r1 : Node,
    Unmarshal (fuel + 2) r.Source false = Outcome.returned (some r1) none
      ∧ r1.Type = r.Type
      ∧ r1.borders = (0, r.Source.length)
      ∧ r1.Source = r.Source

/-- The byte at position `q` is `s` and is not escaped: it is immediately
preceded by an even number (possibly zero) of consecutive backslashes. -/
def Unescaped (s : Nat) (data : List Nat) (q : Nat) : Prop :=
  data[q]? = some s ∧ precedingBackslashes (data.take q) % 2 = 0

instance (s : Nat) (data : List Nat) (q : Nat) : Decidable (Unescaped s data q) := by
  unfold Unescaped; infer_instance

/-- The bytes of the alphabet of `numeric()`: a digit, `.`, `+`, `-`, `e` or
`E`. -/
def NumberByte (c : Nat) : Prop :=
  (48 ≤ c ∧ c ≤ 57) ∨ c = 46 ∨ c = 43 ∨ c = 45 ∨ c = 101 ∨ c = 69

instance (c : Nat) : Decidable (NumberByte c) := by
  unfold NumberByte; infer_instance

/-- The buffer invariant: the length field is the length of the data, and the
cursor is within `0 <= index <= length`. -/
def buffer.Valid (b : buffer) : Prop := b.length = b.data.length ∧ b.index ≤ b.length

/-- The buffer `b1` has the data and the length of `b` and satisfies the
invariant. -/
def buffer.Keeps (b b1 : buffer) : Prop :=
  b1.data = b.data ∧ b1.length = b.length ∧ b1.Valid

/-! ## Lemmas on the cursor -/

theorem drop_cons_inv {l : List Nat} {i c : Nat} {r : List Nat} (h : l.drop i = c :: r) :
    l[i]? = some c ∧ i < l.length ∧ l.drop (i + 1) = r := by
  induction l generalizing i with
  | nil => simp at h
  | cons x xs ih =>
    cases i with
    | zero =>
      simp only [List.drop_zero, List.cons.injEq] at h
      obtain ⟨rfl, rfl⟩ := h
      simp
    | succ j =>
      simp only [List.drop_succ_cons] at h
      obtain ⟨h1, h2, h3⟩ := ih h
      refine ⟨by simpa using h1, by simpa using h2, by simpa using h3⟩

theorem drop_nil_inv {l : List Nat} {i : Nat} (h : l.drop i = []) : l.length ≤ i := by
  simpa using h

theorem rest_cons {b : buffer} {c : Nat} {r : List Nat} (hb : b.InPlace) (h : b.rest = c :: r) :
    b.index < b.length ∧ b.data[b.index]? = some c ∧ (b.advance 1).rest = r
      ∧ (b.advance 1).InPlace ∧ b.length - b.index = (b.length - (b.index + 1)) + 1 := by
  obtain ⟨h1, h2, h3⟩ := drop_cons_inv h
  unfold buffer.InPlace at hb
  refine ⟨by omega, h1, h3, hb, by omega⟩

theorem rest_nil {b : buffer} (hb : b.InPlace) (h : b.rest = []) : ¬ b.index < b.length := by
  have := drop_nil_inv h
  unfold buffer.InPlace at hb
  omega

@[simp] theorem advance_zero (b : buffer) : b.advance 0 = b := rfl

@[simp] theorem advance_data (b : buffer) (k : Nat) : (b.advance k).data = b.data := rfl

@[simp] theorem advance_length (b : buffer) (k : Nat) : (b.advance k).length = b.length := rfl

@[simp] theorem advance_index (b : buffer) (k : Nat) : (b.advance k).index = b.index + k := rfl

theorem advance_advance (b : buffer) (j k : Nat) : (b.advance j).advance k = b.advance (j + k) := by
  simp [buffer.advance, Nat.add_assoc]

theorem advance_one_eq (b : buffer) : ({ b with index := b.index + 1 } : buffer) = b.advance 1 := rfl

/-! ## The loop counters

The counter of a scanner loop only bounds the recursion: with any counter of
at least `b.length - b.index` the loop gives the same result, and the zero
case is reached only when the loop condition `b.index < b.length` is false. -/

theorem firstLoop_counter :
    ∀ (n : Nat) (b : buffer), b.length - b.index ≤ n →
      buffer.firstLoop n b = buffer.firstLoop (b.length - b.index) b := by
  intro n
  induction n with
  | zero => intro b h; rw [Nat.le_zero.mp h]
  | succ m ih =>
    intro b h
    by_cases hlt : b.index < b.length
    · obtain ⟨k, hk⟩ : ∃ k, b.length - b.index = k + 1 := ⟨b.length - b.index - 1, by omega⟩
      have hk2 : k = (b.advance 1).length - (b.advance 1).index := by
        simp only [advance_length, advance_index]; omega
      rw [hk, buffer.firstLoop, buffer.firstLoop, advance_one_eq,
        ih (b.advance 1) (by simp only [advance_length, advance_index]; omega), ← hk2]
    · have hz : b.length - b.index = 0 := by omega
      rw [hz, buffer.firstLoop, buffer.firstLoop, if_neg hlt]

theorem skipLoop_counter (s : Nat) :
    ∀ (n : Nat) (b : buffer), b.length - b.index ≤ n →
      buffer.skipLoop s n b = buffer.skipLoop s (b.length - b.index) b := by
  intro n
  induction n with
  | zero => intro b h; rw [Nat.le_zero.mp h]
  | succ m ih =>
    intro b h
    by_cases hlt : b.index < b.length
    · obtain ⟨k, hk⟩ : ∃ k, b.length - b.index = k + 1 := ⟨b.length - b.index - 1, by omega⟩
      have hk2 : k = (b.advance 1).length - (b.advance 1).index := by
        simp only [advance_length, advance_index]; omega
      rw [hk, buffer.skipLoop, buffer.skipLoop, advance_one_eq,
        ih (b.advance 1) (by simp only [advance_length, advance_index]; omega), ← hk2]
    · have hz : b.length - b.index = 0 := by omega
      rw [hz, buffer.skipLoop, buffer.skipLoop, if_neg hlt]

theorem numericLoop_counter :
    ∀ (n : Nat) (b : buffer) (find : Nat), b.length - b.index ≤ n →
      buffer.numericLoop n b find = buffer.numericLoop (b.length - b.index) b find := by
  intro n
  induction n with
  | zero => intro b find h; rw [Nat.le_zero.mp h]
  | succ m ih =>
    intro b find h
    by_cases hlt : b.index < b.length
    · obtain ⟨k, hk⟩ : ∃ k, b.length - b.index = k + 1 := ⟨b.length - b.index - 1, by omega⟩
      have hk2 : k = (b.advance 1).length - (b.advance 1).index := by
        simp only [advance_length, advance_index]; omega
      have hrec : ∀ f, buffer.numericLoop m (b.advance 1) f = buffer.numericLoop k (b.advance 1) f := by
        intro f
        rw [ih (b.advance 1) f (by simp only [advance_length, advance_index]; omega), ← hk2]
      rw [hk, buffer.numericLoop, buffer.numericLoop]
      simp only [advance_one_eq, hrec]
    · have hz : b.length - b.index = 0 := by omega
      rw [hz, buffer.numericLoop, buffer.numericLoop, if_neg hlt]

theorem wordLoop_counter (word : List Nat) :
    ∀ (n : Nat) (b : buffer) (idx : Nat), b.length - b.index ≤ n →
      buffer.wordLoop word n b idx = buffer.wordLoop word (b.length - b.index) b idx := by
  intro n
  induction n with
  | zero => intro b idx h; rw [Nat.le_zero.mp h]
  | succ m ih =>
    intro b idx h
    by_cases hlt : b.index < b.length
    · obtain ⟨k, hk⟩ : ∃ k, b.length - b.index = k + 1 := ⟨b.length - b.index - 1, by omega⟩
      have hk2 : k = (b.advance 1).length - (b.advance 1).index := by
        simp only [advance_length, advance_index]; omega
      have hrec : ∀ i, buffer.wordLoop word m (b.advance 1) i
          = buffer.wordLoop word k (b.advance 1) i := by
        intro i
        rw [ih (b.advance 1) i (by simp only [advance_length, advance_index]; omega), ← hk2]
      rw [hk, buffer.wordLoop, buffer.wordLoop]
      simp only [advance_one_eq, hrec]
    · have hz : b.length - b.index = 0 := by omega
      rw [hz, buffer.wordLoop, buffer.wordLoop, if_neg hlt]

theorem scanLoop_counter (s : Nat) (skip : Bool) :
    ∀ (n : Nat) (b : buffer) (from1 to1 : Int) (find : Bool), b.length - b.index ≤ n →
      buffer.scanLoop s skip n b from1 to1 find
        = buffer.scanLoop s skip (b.length - b.index) b from1 to1 find := by
  intro n
  induction n with
  | zero => intro b from1 to1 find h; rw [Nat.le_zero.mp h]
  | succ m ih =>
    intro b from1 to1 find h
    by_cases hlt : b.index < b.length
    · obtain ⟨k, hk⟩ : ∃ k, b.length - b.index = k + 1 := ⟨b.length - b.index - 1, by omega⟩
      have hk2 : k = (b.advance 1).length - (b.advance 1).index := by
        simp only [advance_length, advance_index]; omega
      have hrec : ∀ x y z, buffer.scanLoop s skip m (b.advance 1) x y z
          = buffer.scanLoop s skip k (b.advance 1) x y z := by
        intro x y z
        rw [ih (b.advance 1) x y z (by simp only [advance_length, advance_index]; omega), ← hk2]
      rw [hk, buffer.scanLoop, buffer.scanLoop]
      simp only [advance_one_eq, hrec]
    · have hz : b.length - b.index = 0 := by omega
      rw [hz, buffer.scanLoop, buffer.scanLoop, if_neg hlt]

/-! ## `first()` -/

/-- Where `first()` finds whitespace followed by a byte that is none, it
stops on that byte and returns it. -/
theorem firstLoop_found (ws : List Nat) (c : Nat) (r : List Nat) (hws : Whitespace ws)
    (hc : ¬ (c = 32 ∨ c = 10 ∨ c = 13 ∨ c = 9)) :
    ∀ (b : buffer) (n : Nat), b.InPlace → b.rest = ws ++ c :: r → n = b.length - b.index →
      buffer.firstLoop n b = some (b.advance ws.length, c, none) := by
  induction ws with
  | nil =>
    intro b n hb hr hn
    obtain ⟨h1, h2, -, -, h5⟩ := rest_cons hb (by simpa using hr)
    rw [hn, h5, buffer.firstLoop]
    have hc2 : (c == skipS || c == skipR || c == skipN || c == skipT) = false := by
      simp only [skipS, skipR, skipN, skipT, Bool.or_eq_false_iff, beq_eq_false_iff_ne]
      omega
    simp [h1, h2, hc2]
  | cons w ws ih =>
    intro b n hb hr hn
    obtain ⟨h1, h2, h3, h4, h5⟩ := rest_cons hb (by simpa using hr)
    have hw : (w == skipS || w == skipR || w == skipN || w == skipT) = true := by
      have := hws w (by simp)
      simp only [skipS, skipR, skipN, skipT, Bool.or_eq_true, beq_iff_eq]
      omega
    rw [hn, h5, buffer.firstLoop]
    simp only [h1, h2, hw, advance_one_eq, if_true, Bool.not_true, Bool.false_eq_true, if_false]
    rw [ih (fun x hx => hws x (by simp [hx])) (b.advance 1) (b.length - (b.index + 1)) h4 h3 rfl,
      advance_advance]
    simp [Nat.add_comm]

/-- Where only whitespace is left, `first()` moves the cursor to the end and
gives `io.EOF`. -/
theorem firstLoop_eof (ws : List Nat) (hws : Whitespace ws) :
    ∀ (b : buffer) (n : Nat), b.InPlace → b.rest = ws → n = b.length - b.index →
      buffer.firstLoop n b = some (b.advance ws.length, 0, some Error.EOF) := by
  induction ws with
  | nil =>
    intro b n hb hr hn
    have h := rest_nil hb hr
    cases n with
    | zero => simp [buffer.firstLoop]
    | succ m => simp [buffer.firstLoop, h]
  | cons w ws ih =>
    intro b n hb hr hn
    obtain ⟨h1, h2, h3, h4, h5⟩ := rest_cons hb hr
    have hw : (w == skipS || w == skipR || w == skipN || w == skipT) = true := by
      have := hws w (by simp)
      simp only [skipS, skipR, skipN, skipT, Bool.or_eq_true, beq_iff_eq]
      omega
    rw [hn, h5, buffer.firstLoop]
    simp only [h1, h2, hw, advance_one_eq, if_true, Bool.not_true, Bool.false_eq_true, if_false]
    rw [ih (fun x hx => hws x (by simp [hx])) (b.advance 1) (b.length - (b.index + 1)) h4 h3 rfl,
      advance_advance]
    simp [Nat.add_comm]

theorem rest_advance (b : buffer) (k : Nat) : (b.advance k).rest = b.rest.drop k := by
  simp [buffer.rest, buffer.advance, List.drop_drop, Nat.add_comm]

theorem inPlace_advance {b : buffer} (hb : b.InPlace) (k : Nat) : (b.advance k).InPlace := hb

theorem first_found {b : buffer} {ws : List Nat} {c : Nat} {r : List Nat} (hb : b.InPlace)
    (hr : b.rest = ws ++ c :: r) (hws : Whitespace ws)
    (hc : ¬ (c = 32 ∨ c = 10 ∨ c = 13 ∨ c = 9)) :
    b.first = some (b.advance ws.length, c, none) :=
  firstLoop_found ws c r hws hc b _ hb hr rfl

theorem first_eof {b : buffer} {ws : List Nat} (hb : b.InPlace) (hr : b.rest = ws)
    (hws : Whitespace ws) :
    b.first = some (b.advance ws.length, 0, some Error.EOF) :=
  firstLoop_eof ws hws b _ hb hr rfl

theorem rest_after_ws {b : buffer} {ws r : List Nat} (hr : b.rest = ws ++ r) :
    (b.advance ws.length).rest = r := by
  rw [rest_advance, hr]; simp

theorem newBuffer_inPlace (body : List Nat) : (newBuffer body false).InPlace := rfl

theorem newBuffer_rest (body : List Nat) : (newBuffer body false).rest = body := rfl

/-! ## The container cases of the main loop -/

/-- While the next significant byte is `[` or `{`, an iteration of the main
loop changes nothing, so the loop is still running after any number of
iterations. -/
theorem base_open_running (key : List Nat) (index : Option Nat) (c : Nat) (r : List Nat)
    (hc : c = bracketL ∨ c = bracesL) :
    ∀ (fuel : Nat) (buf : buffer) (current : Option Node) (ws : List Nat), buf.InPlace →
      buf.rest = ws ++ c :: r → Whitespace ws →
      Unmarshal.base key index fuel buf current = Outcome.running := by
  intro fuel
  induction fuel with
  | zero => intros; rfl
  | succ n ih =>
    intro buf current ws hb hr hws
    have hc2 : ¬ (c = 32 ∨ c = 10 ∨ c = 13 ∨ c = 9) := by
      rcases hc with h | h <;> simp [h, bracketL, bracesL]
    have hnext := ih (buf.advance ws.length) current [] (inPlace_advance hb _)
      (by simpa using rest_after_ws hr) (by intro x hx; simp at hx)
    rw [Unmarshal.base, first_found hb hr hws hc2]
    rcases hc with h | h
    · subst h
      simp only [bracketL, bracesL] at hnext ⊢
      simpa using hnext
    · subst h
      simpa using hnext

/-! ## How the main loop ends -/

theorem outer_error {err : Option Error} {current root : Option Node} {e : Error}
    (h : Unmarshal.outer err current = Outcome.returned root (some e)) : root = none := by
  unfold Unmarshal.outer at h
  split at h
  · simp at h
  · simp only [Outcome.returned.injEq] at h
    exact h.1.symm

/-- Whenever the main loop returns an error, the root it returns is nil. -/
theorem base_error (key : List Nat) (index : Option Nat) :
    ∀ (fuel : Nat) (buf : buffer) (current root : Option Node) (e : Error),
      Unmarshal.base key index fuel buf current = Outcome.returned root (some e) → root = none := by
  intro fuel
  induction fuel with
  | zero => intro buf current root e h; simp [Unmarshal.base] at h
  | succ n ih =>
    intro buf current root e h
    unfold Unmarshal.base at h
    repeat' split at h
    all_goals first
      | exact ih _ _ _ _ h
      | exact outer_error h
      | (simp only [Outcome.returned.injEq] at h; exact h.1.symm)
      | simp at h

/-! ## `step()` and the end of a parse -/

theorem step_lt {b : buffer} (h : b.index + 1 < b.length) : b.step = (b.advance 1, none) := by
  simp [buffer.step, h, buffer.advance]

theorem step_ge {b : buffer} (h : ¬ b.index + 1 < b.length) : b.step = (b, some Error.EOF) := by
  simp [buffer.step, h]

theorem outer_eof (current : Option Node) :
    Unmarshal.outer (some Error.EOF) current = Outcome.returned current none := by
  simp [Unmarshal.outer]

/-- With only whitespace left, one more iteration of the main loop returns the
current node. -/
theorem base_trailing (key : List Nat) (index : Option Nat) (fuel : Nat) {buf : buffer}
    {trail : List Nat} (current : Option Node) (hb : buf.InPlace) (hr : buf.rest = trail)
    (ht : Whitespace trail) :
    Unmarshal.base key index (fuel + 1) buf current = Outcome.returned current none := by
  rw [Unmarshal.base, first_eof hb hr ht]
  exact outer_eof current

/-- The cursor is on the last byte of a token that only whitespace follows:
after `step()`, the main loop returns the current node. -/
theorem step_then_trailing (key : List Nat) (index : Option Nat) (fuel : Nat) {buf : buffer}
    {trail : List Nat} (current : Option Node) (hb : buf.InPlace)
    (hr : (buf.advance 1).rest = trail) (ht : Whitespace trail) :
    (match buf.step with
      | (_, some err) => Unmarshal.outer (some err) current
      | (buf, none) => Unmarshal.base key index (fuel + 1) buf current)
      = Outcome.returned current none := by
  by_cases h : buf.index + 1 < buf.length
  · rw [step_lt h]
    exact base_trailing key index fuel current (inPlace_advance hb 1) hr ht
  · rw [step_ge h]
    exact outer_eof current

/-! ## `word()` -/

/-- On bytes that spell the rest of the word in either case, the loop of
`word()` stops on the last of them without error. -/
theorem wordLoop_match (word : List Nat) :
    ∀ (todo w : List Nat), List.Forall₂ (fun c x => c = x ∨ c = (x + 256 - 32) % 256) w todo →
      todo ≠ [] → ∀ (b : buffer) (n idx : Nat) (r : List Nat), word.drop idx = todo → b.InPlace →
      b.rest = w ++ r → n = b.length - b.index →
      buffer.wordLoop word n b idx = some (b.advance (todo.length - 1), none) := by
  intro todo w hm
  induction hm with
  | nil => intro h; exact absurd rfl h
  | @cons c x w todo hcx hrest ih =>
    intro _ b n idx r hword hb hr hn
    obtain ⟨h1, h2, h3, h4, h5⟩ := rest_cons hb (by simpa using hr)
    obtain ⟨g1, g2, g3⟩ := drop_cons_inv hword
    have hcond : (c != x && c != (x + 256 - 32) % 256) = false := by
      rcases hcx with h | h
      · simp [h]
      · rw [Bool.and_eq_false_iff]; right; simp [h]
    rw [hn, h5, buffer.wordLoop]
    simp only [h1, h2, g1, hcond, if_true, Bool.false_eq_true, if_false, advance_one_eq]
    cases todo with
    | nil =>
      have hlen : word.length ≤ idx + 1 := drop_nil_inv g3
      have hlen2 : idx + 1 = word.length := by omega
      simp [hlen, buffer.wordEnd, hlen2]
    | cons y ys =>
      have hlen : idx + 1 < word.length := (drop_cons_inv g3).2.1
      have hnot : ¬ (idx + 1 ≥ word.length) := by omega
      rw [if_neg hnot, ih (by simp) (b.advance 1) (b.length - (b.index + 1)) (idx + 1) r g3 h4 h3 rfl,
        advance_advance]
      simp [Nat.add_comm]

theorem word_match {b : buffer} {word w r : List Nat} (hb : b.InPlace) (hr : b.rest = w ++ r)
    (hm : List.Forall₂ (fun c x => c = x ∨ c = (x + 256 - 32) % 256) w word) (hne : word ≠ []) :
    b.word word = some (b.advance (word.length - 1), none) :=
  wordLoop_match word word w hm hne b _ 0 r rfl hb hr rfl

theorem spelled_code {w word : List Nat} (h : SpelledAnyCase w word)
    (hx : ∀ x ∈ word, 32 ≤ x ∧ x < 256) :
    List.Forall₂ (fun c x => c = x ∨ c = (x + 256 - 32) % 256) w word := by
  induction h with
  | nil => exact List.Forall₂.nil
  | @cons c x w word hcx _ ih =>
    refine List.Forall₂.cons ?_ (ih (fun y hy => hx y (by simp [hy])))
    have := hx x (by simp)
    omega

theorem source_of_middle (lead w trail : List Nat) (p : Option Node) (t : NodeType)
    (k : List Nat) (i : Option Nat) :
    (Node.mk p (lead ++ w ++ trail) (lead.length, lead.length + w.length) t k i).Source = w := by
  simp [Node.Source, Node.data, Node.borders]

/-- A literal word in either case between whitespace: the main loop returns
its node. `sel` says that the first byte of the word leads to the case of the
main loop that runs `word(word)` and makes a node of kind `kind`. -/
theorem base_literal (key : List Nat) (index : Option Nat) (fuel : Nat) (buf : buffer)
    (current : Option Node) (lead w trail word : List Nat) (kind : NodeType)
    (hb : buf.InPlace) (hr : buf.rest = lead ++ w ++ trail) (hlead : Whitespace lead)
    (htrail : Whitespace trail) (hw : SpelledAnyCase w word)
    (hword : (word = _null ∧ kind = NodeType.Null) ∨ (word = _true ∧ kind = NodeType.Bool)
      ∨ (word = _false ∧ kind = NodeType.Bool)) :
    Unmarshal.base key index (fuel + 2) buf current
      = Outcome.returned (some (Node.mk current buf.data
          (buf.index + lead.length, buf.index + lead.length + w.length) kind key index)) none := by
  have hx : ∀ x ∈ word, 32 ≤ x ∧ x < 256 := by
    rcases hword with ⟨h, -⟩ | ⟨h, -⟩ | ⟨h, -⟩ <;> subst h <;> simp [_null, _true, _false]
  have hne : word ≠ [] := by
    rcases hword with ⟨h, -⟩ | ⟨h, -⟩ | ⟨h, -⟩ <;> subst h <;> simp [_null, _true, _false]
  have hcode := spelled_code hw hx
  have hlen : w.length = word.length := hw.length_eq
  obtain ⟨c, w1, rfl⟩ : ∃ c w1, w = c :: w1 := by
    cases w with
    | nil => cases hw; exact absurd rfl hne
    | cons c w1 => exact ⟨c, w1, rfl⟩
  have hc : (c = 110 ∨ c = 78) ∧ kind = NodeType.Null ∧ word = _null
      ∨ (c = 116 ∨ c = 84) ∧ kind = NodeType.Bool ∧ word = _true
      ∨ (c = 102 ∨ c = 70) ∧ kind = NodeType.Bool ∧ word = _false := by
    rcases hword with ⟨h, hk⟩ | ⟨h, hk⟩ | ⟨h, hk⟩
    all_goals
      subst h
      simp only [SpelledAnyCase, _null, _true, _false, List.forall₂_cons] at hw
      have h0 := hw.1
      simp only [hk, _null, _true, _false, true_and, and_true]
    · left; omega
    · right; left; omega
    · right; right; omega
  have hr1 : buf.rest = lead ++ c :: (w1 ++ trail) := by simpa using hr
  have hr2 : (buf.advance lead.length).rest = (c :: w1) ++ trail := by
    simpa using rest_after_ws hr1
  have hb2 := inPlace_advance hb lead.length
  have hr3 : (((buf.advance lead.length).advance (word.length - 1)).advance 1).rest = trail := by
    rw [advance_advance, rest_advance, hr2]
    have hpos : 0 < word.length := List.length_pos.mpr hne
    have : word.length - 1 + 1 = (c :: w1).length := by rw [hlen]; omega
    rw [this]; simp
  have hfin := step_then_trailing key index fuel
    (some ((newNode current (buf.advance lead.length) kind key index).setEnd
      (((buf.advance lead.length).advance (word.length - 1)).index + 1)))
    (inPlace_advance hb2 (word.length - 1)) hr3 htrail
  have hnode : (newNode current (buf.advance lead.length) kind key index).setEnd
      (((buf.advance lead.length).advance (word.length - 1)).index + 1)
      = Node.mk current buf.data
          (buf.index + lead.length, buf.index + lead.length + (c :: w1).length) kind key index := by
    simp only [newNode, Node.setEnd, advance_data, advance_index, hlen]
    have : 0 < word.length := List.length_pos.mpr hne
    congr 2
    omega
  have hnws : ¬ (c = 32 ∨ c = 10 ∨ c = 13 ∨ c = 9) := by omega
  rw [← hnode, Unmarshal.base, first_found hb hr1 hlead hnws]
  rcases hc with ⟨hc, hk, hwd⟩ | ⟨hc, hk, hwd⟩ | ⟨hc, hk, hwd⟩
  · subst hwd hk
    have hwm := word_match hb2 hr2 hcode hne
    rcases hc with rfl | rfl <;>
      simpa [bracesL, bracketL, quotes, buffer.null, hwm] using hfin
  · subst hwd hk
    have hwm := word_match hb2 hr2 hcode hne
    rcases hc with rfl | rfl <;>
      simpa [bracesL, bracketL, quotes, buffer.true, hwm] using hfin
  · subst hwd hk
    have hwm := word_match hb2 hr2 hcode hne
    rcases hc with rfl | rfl <;>
      simpa [bracesL, bracketL, quotes, buffer.false, hwm] using hfin

/-! ## `numeric()` -/

/-- The loop of `numeric()` steps over a byte for which `numStep` gives a new
bit mask. -/
theorem numericLoop_step {b : buffer} {c : Nat} {r : List Nat} {find find1 : Nat}
    (hb : b.InPlace) (hr : b.rest = c :: r) (hs : numStep find c = some find1) :
    buffer.numericLoop (b.length - b.index) b find
      = buffer.numericLoop ((b.advance 1).length - (b.advance 1).index) (b.advance 1) find1 := by
  obtain ⟨h1, h2, -, -, h5⟩ := rest_cons hb hr
  rw [h5, buffer.numericLoop]
  simp only [h1, h2, if_true, advance_one_eq, advance_length, advance_index]
  unfold numStep at hs
  split at hs
  · rename_i hd
    rw [if_pos hd]
    simp only [Option.some.injEq] at hs
    rw [hs]
  · rename_i hd
    rw [if_neg hd]
    split at hs
    · rename_i hdot
      rw [if_pos hdot]
      split at hs
      · rename_i h2
        rw [if_pos h2]
        simp only [Option.some.injEq] at hs
        rw [hs]
      · simp at hs
    · rename_i hdot
      rw [if_neg hdot]
      split at hs
      · rename_i hsg
        rw [if_pos hsg]
        split at hs
        · rename_i h2
          rw [if_pos h2]
          simp only [Option.some.injEq] at hs
          rw [hs]
        · simp at hs
      · rename_i hsg
        rw [if_neg hsg]
        split at hs
        · rename_i he
          rw [if_pos he]
          split at hs
          · rename_i h2
            rw [if_pos h2]
            simp only [Option.some.injEq] at hs
            rw [hs]
          · simp at hs
        · simp at hs

/-- The loop of `numeric()` steps over a run of bytes for which `numRun` gives
a bit mask. -/
theorem numericLoop_run (tok : List Nat) :
    ∀ (b : buffer) (r : List Nat) (find find1 : Nat), b.InPlace → b.rest = tok ++ r →
      numRun find tok = some find1 →
      buffer.numericLoop (b.length - b.index) b find
        = buffer.numericLoop ((b.advance tok.length).length - (b.advance tok.length).index)
            (b.advance tok.length) find1 := by
  induction tok with
  | nil =>
    intro b r find find1 _ _ hrun
    simp only [numRun, Option.some.injEq] at hrun
    simp [hrun]
  | cons c cs ih =>
    intro b r find find1 hb hr hrun
    rw [numRun] at hrun
    split at hrun
    · simp at hrun
    · rename_i f2 hs
      obtain ⟨-, -, h3, h4, -⟩ := rest_cons hb (by simpa using hr)
      rw [numericLoop_step hb (by simpa using hr) hs, ih (b.advance 1) r f2 find1 h4 h3 hrun,
        advance_advance]
      simp [Nat.add_comm]

/-- At the end of the input the loop of `numeric()` is left by its
condition. -/
theorem numericLoop_end {b : buffer} (hb : b.InPlace) (hr : b.rest = []) (find : Nat) :
    buffer.numericLoop (b.length - b.index) b find = some (b.numericEnd find) := by
  have h := rest_nil hb hr
  cases hn : b.length - b.index with
  | zero => rfl
  | succ m => simp [buffer.numericLoop, h]

/-- On a whitespace byte the loop of `numeric()` stops; it gives no error when
a digit was the last byte before. -/
theorem numericLoop_ws {b : buffer} {c : Nat} {r : List Nat} (hb : b.InPlace)
    (hr : b.rest = c :: r) (hc : c = 32 ∨ c = 10 ∨ c = 13 ∨ c = 9) (find : Nat)
    (hf : find &&& 4 ≠ 0) :
    buffer.numericLoop (b.length - b.index) b find = some (b, none) := by
  obtain ⟨h1, h2, -, -, h5⟩ := rest_cons hb hr
  rw [h5, buffer.numericLoop]
  have e1 : (decide (c ≥ 48) && decide (c ≤ 57)) = false := by
    simp only [Bool.and_eq_false_iff, decide_eq_false_iff_not]; omega
  have e2 : (c == 46) = false := by simp only [beq_eq_false_iff_ne]; omega
  have e3 : (c == 43 || c == 45) = false := by
    simp only [Bool.or_eq_false_iff, beq_eq_false_iff_ne]; omega
  have e4 : (c == 101 || c == 69) = false := by
    simp only [Bool.or_eq_false_iff, beq_eq_false_iff_ne]; omega
  simp [h1, h2, e1, e2, e3, e4, hf]

theorem numRun_append (a b : List Nat) :
    ∀ find : Nat, numRun find (a ++ b) = (numRun find a).bind (fun f => numRun f b) := by
  induction a with
  | nil => intro find; simp [numRun]
  | cons c cs ih =>
    intro find
    simp only [List.cons_append, numRun]
    cases numStep find c with
    | none => simp
    | some f => simpa using ih f

theorem numStep_digit {c : Nat} (hc : 48 ≤ c ∧ c ≤ 57) (find : Nat) :
    numStep find c = some (find ||| 4) := by
  simp [numStep, hc.1, hc.2]

theorem numRun_digits (d : List Nat) (hd : Digits d) :
    ∀ find : Nat, numRun find d = some (if d = [] then find else find ||| 4) := by
  induction d with
  | nil => intro find; simp [numRun]
  | cons c cs ih =>
    intro find
    rw [numRun, numStep_digit (hd c (by simp))]
    simp only [ih (fun x hx => hd x (by simp [hx])), Nat.or_assoc]
    split <;> simp

theorem numRun_sign {s : List Nat} (hs : Sign s) {find : Nat} (hf : find = 0 ∨ find = 8) :
    ∃ f, numRun find s = some f ∧ (f = find ∨ f = find + 1) := by
  rcases hs with rfl | rfl | rfl
  · exact ⟨find, rfl, Or.inl rfl⟩
  · rcases hf with rfl | rfl
    · exact ⟨1, by decide, Or.inr rfl⟩
    · exact ⟨9, by decide, Or.inr rfl⟩
  · rcases hf with rfl | rfl
    · exact ⟨1, by decide, Or.inr rfl⟩
    · exact ⟨9, by decide, Or.inr rfl⟩

theorem numRun_mantissa {m : List Nat} (hm : Mantissa m) {find : Nat}
    (hf : find = 0 ∨ find = 1) :
    ∃ f, numRun find m = some f ∧ (f = 4 ∨ f = 5) := by
  obtain ⟨a, b, ha, hb, h | h⟩ := hm
  · obtain ⟨rfl, hne⟩ := h
    rw [numRun_digits m ha, if_neg hne]
    rcases hf with rfl | rfl
    · exact ⟨4, rfl, Or.inl rfl⟩
    · exact ⟨5, rfl, Or.inr rfl⟩
  · obtain ⟨rfl, hne⟩ := h
    refine ⟨4, ?_, Or.inl rfl⟩
    rw [numRun_append, numRun_digits a ha]
    have hdot : ∀ f : Nat, f = 0 ∨ f = 1 ∨ f = 4 ∨ f = 5 → numStep f 46 = some 0 := by
      intro f hf
      rcases hf with rfl | rfl | rfl | rfl <;> decide
    have hfa : (if a = [] then find else find ||| 4) = 0 ∨ (if a = [] then find else find ||| 4) = 1
        ∨ (if a = [] then find else find ||| 4) = 4 ∨ (if a = [] then find else find ||| 4) = 5 := by
      split <;> rcases hf with rfl | rfl <;> simp
    simp only [Option.some_bind, numRun, hdot _ hfa, numRun_digits b hb, if_neg hne]
    rfl

theorem numRun_exponent {e : List Nat} (he : Exponent e) {find : Nat}
    (hf : find = 4 ∨ find = 5) :
    ∃ f, numRun find e = some f ∧ f &&& 4 ≠ 0 := by
  rcases he with rfl | ⟨m, s, d, fr, hm, hs, hd, hne, hfr, rfl⟩
  · refine ⟨find, rfl, ?_⟩
    rcases hf with rfl | rfl <;> decide
  · have hexp : numStep find m = some 8 := by
      rcases hf with rfl | rfl <;> rcases hm with rfl | rfl <;> decide
    obtain ⟨f1, hf1, hf1v⟩ := numRun_sign hs (Or.inr rfl : (8 : Nat) = 0 ∨ (8 : Nat) = 8)
    have hf2 : f1 ||| 4 = 12 ∨ f1 ||| 4 = 13 := by
      rcases hf1v with rfl | rfl
      · left; decide
      · right; decide
    rw [numRun, hexp]
    simp only [numRun_append, hf1, Option.some_bind, numRun_digits d hd, if_neg hne]
    rcases hfr with rfl | ⟨g, rfl, hg, hgne⟩
    · refine ⟨f1 ||| 4, rfl, ?_⟩
      rcases hf2 with h | h <;> rw [h] <;> decide
    · refine ⟨4, ?_, by decide⟩
      have hdot : numStep (f1 ||| 4) 46 = some 0 := by
        rcases hf2 with h | h <;> rw [h] <;> decide
      simp only [numRun, hdot, numRun_digits g hg, if_neg hgne]
      rfl

/-- The loop of `numeric()` steps over every number text of the claim and ends
with the digit bit set. -/
theorem numRun_numberText {N : List Nat} (hN : NumberText N) :
    ∃ f, numRun 0 N = some f ∧ f &&& 4 ≠ 0 := by
  obtain ⟨s, m, e, hs, hm, he, rfl⟩ := hN
  obtain ⟨f1, hf1, hv1⟩ := numRun_sign hs (Or.inl rfl : (0 : Nat) = 0 ∨ (0 : Nat) = 8)
  have hv1b : f1 = 0 ∨ f1 = 1 := by omega
  obtain ⟨f2, hf2, hv2⟩ := numRun_mantissa hm hv1b
  obtain ⟨f3, hf3, hv3⟩ := numRun_exponent he hv2
  refine ⟨f3, ?_, hv3⟩
  simp [numRun_append, hf1, hf2, hf3]

/-- A byte the loop of `numeric()` steps over is a byte that the main loop
takes as the lead of a number. -/
theorem numStep_lead {find c f : Nat} (h : numStep find c = some f) :
    ((decide (c ≥ 48) && decide (c ≤ 57)) || c == 46 || c == 43 || c == 45 || c == 101
      || c == 69) = true := by
  unfold numStep at h
  split at h
  · rename_i h1; simp [h1]
  · split at h
    · rename_i h1; simp [h1]
    · split at h
      · rename_i h1
        simp only [Bool.or_eq_true] at h1 ⊢
        tauto
      · split at h
        · rename_i h1
          simp only [Bool.or_eq_true] at h1 ⊢
          tauto
        · simp at h

/-- On a number text followed by whitespace only, `numeric()` stops just after
the text: with `io.EOF` at the end of the input, with no error before
whitespace. -/
theorem numeric_text {b : buffer} {N trail : List Nat} {f : Nat} (hb : b.InPlace)
    (hr : b.rest = N ++ trail) (htrail : Whitespace trail) (hrun : numRun 0 N = some f)
    (hf : f &&& 4 ≠ 0) :
    b.numeric = some (b.advance N.length, if trail = [] then some Error.EOF else none) := by
  have hr2 : (b.advance N.length).rest = trail := rest_after_ws hr
  have hb2 := inPlace_advance hb N.length
  unfold buffer.numeric
  rw [numericLoop_run N b trail 0 f hb hr hrun]
  cases trail with
  | nil =>
    rw [numericLoop_end hb2 hr2]
    simp [buffer.numericEnd, hf]
  | cons t ts =>
    rw [numericLoop_ws hb2 hr2 (htrail t (by simp)) f hf]
    simp

/-- A number text between whitespace: the main loop returns its node. -/
theorem base_numeric (key : List Nat) (index : Option Nat) (fuel : Nat) (buf : buffer)
    (current : Option Node) (lead N trail : List Nat) (f : Nat)
    (hb : buf.InPlace) (hr : buf.rest = lead ++ N ++ trail) (hlead : Whitespace lead)
    (htrail : Whitespace trail) (hrun : numRun 0 N = some f) (hf : f &&& 4 ≠ 0) :
    Unmarshal.base key index (fuel + 2) buf current
      = Outcome.returned (some (Node.mk current buf.data
          (buf.index + lead.length, buf.index + lead.length + N.length) NodeType.Numeric
          key index)) none := by
  obtain ⟨c, N1, rfl⟩ : ∃ c N1, N = c :: N1 := by
    cases N with
    | nil => simp only [numRun, Option.some.injEq] at hrun; subst hrun; exact absurd rfl hf
    | cons c N1 => exact ⟨c, N1, rfl⟩
  obtain ⟨f1, hstep⟩ : ∃ f1, numStep 0 c = some f1 := by
    rw [numRun] at hrun
    cases hs : numStep 0 c with
    | none => rw [hs] at hrun; simp at hrun
    | some f1 => exact ⟨f1, rfl⟩
  have hlead2 := numStep_lead hstep
  have hcases : (48 ≤ c ∧ c ≤ 57) ∨ c = 46 ∨ c = 43 ∨ c = 45 ∨ c = 101 ∨ c = 69 := by
    have h := hlead2
    simp only [Bool.or_eq_true, Bool.and_eq_true, decide_eq_true_eq, beq_iff_eq] at h
    omega
  have hnws : ¬ (c = 32 ∨ c = 10 ∨ c = 13 ∨ c = 9) := by omega
  have h1 : (c == bracesL) = false := by simp only [bracesL, beq_eq_false_iff_ne]; omega
  have h2 : (c == bracketL) = false := by simp only [bracketL, beq_eq_false_iff_ne]; omega
  have h3 : (c == quotes) = false := by simp only [quotes, beq_eq_false_iff_ne]; omega
  have hr1 : buf.rest = lead ++ c :: (N1 ++ trail) := by simpa using hr
  have hr2 : (buf.advance lead.length).rest = (c :: N1) ++ trail := by
    simpa using rest_after_ws hr1
  have hb2 := inPlace_advance hb lead.length
  have hnum := numeric_text hb2 hr2 htrail hrun hf
  have hr3 : ((buf.advance lead.length).advance (c :: N1).length).rest = trail :=
    rest_after_ws hr2
  rw [Unmarshal.base, first_found hb hr1 hlead hnws]
  simp only [h1, h2, h3, hlead2, hnum, if_true, Bool.false_eq_true, if_false]
  cases trail with
  | nil =>
    simp only [if_true, outer_eof]
    rfl
  | cons t ts =>
    simp only [List.cons_ne_nil, if_false]
    rw [base_trailing key index fuel _ (inPlace_advance hb2 _) hr3 htrail]
    rfl

/-! ## `backslash()`, `skip()` and `string()` -/

theorem precedingBackslashes_snoc (l : List Nat) (c : Nat) :
    precedingBackslashes (l ++ [c]) = if c = 92 then precedingBackslashes l + 1 else 0 := by
  unfold precedingBackslashes
  rw [List.reverse_append, List.reverse_singleton, List.singleton_append, List.takeWhile_cons]
  by_cases h : c = 92 <;> simp [h]

theorem takeWhile_append_stop (p : Nat → Bool) (l1 l2 : List Nat) (c : Nat) (hc : p c = false) :
    (l1 ++ c :: l2).takeWhile p = l1.takeWhile p := by
  induction l1 with
  | nil => simp [List.takeWhile_cons, hc]
  | cons x xs ih =>
    simp only [List.cons_append, List.takeWhile_cons]
    split
    · rw [ih]
    · rfl

/-- The run of backslashes before a position does not reach over a byte that
is no backslash. -/
theorem precedingBackslashes_after (a l : List Nat) (c : Nat) (hc : c ≠ 92) :
    precedingBackslashes (a ++ c :: l) = precedingBackslashes l := by
  unfold precedingBackslashes
  rw [List.reverse_append, List.reverse_cons, List.append_assoc, List.singleton_append,
    takeWhile_append_stop _ _ _ _ (by simpa using hc)]

/-- The loop of `backslash()` flips its result when the run of backslashes
before the position is odd. -/
theorem backslashLoop_parity (b : buffer) :
    ∀ (k : Nat) (r : Bool), k ≤ b.data.length →
      b.backslashLoop k r
        = some (if precedingBackslashes (b.data.take k) % 2 = 1 then !r else r) := by
  intro k
  induction k with
  | zero => intro r _; simp [buffer.backslashLoop, precedingBackslashes]
  | succ i ih =>
    intro r hk
    have hi : i < b.data.length := by omega
    have hget : b.data[i]? = some b.data[i] := List.getElem?_eq_getElem hi
    have htake : b.data.take (i + 1) = b.data.take i ++ [b.data[i]] := by
      rw [List.take_succ, hget]; rfl
    rw [buffer.backslashLoop, hget, htake, precedingBackslashes_snoc]
    by_cases hc : b.data[i] = 92
    · simp only [hc, Ajson.backslash, beq_self_eq_true, if_true]
      rw [ih (!r) (by omega)]
      rcases Nat.mod_two_eq_zero_or_one (precedingBackslashes (b.data.take i)) with h | h
      · have h2 : (precedingBackslashes (b.data.take i) + 1) % 2 = 1 := by omega
        simp [h, h2]
      · have h2 : ¬ (precedingBackslashes (b.data.take i) + 1) % 2 = 1 := by omega
        simp [h, h2]
    · have hc2 : (b.data[i] == Ajson.backslash) = false := by
        simpa [Ajson.backslash] using hc
      simp [hc, hc2]

theorem backslash_parity {b : buffer} (h : b.index ≤ b.data.length) :
    b.backslash
      = some (decide (precedingBackslashes (b.data.take b.index) % 2 = 1)) := by
  unfold buffer.backslash
  rw [backslashLoop_parity b b.index false h]
  by_cases hp : precedingBackslashes (b.data.take b.index) % 2 = 1 <;> simp [hp]

theorem take_advance_one {b : buffer} {c : Nat} (h : b.data[b.index]? = some c) :
    (b.advance 1).data.take (b.advance 1).index = b.data.take b.index ++ [c] := by
  simp only [advance_data, advance_index]
  rw [List.take_succ, h]; rfl

/-- Inside a body whose quotes are all escaped, `skip(quotes)` runs on to the
closing quote and stops on it. -/
theorem skipLoop_body (body trail pre : List Nat) (hesc : EscapedBody body) :
    ∀ (todo done : List Nat) (b : buffer), body = done ++ todo → b.InPlace →
      b.data.take b.index = pre ++ 34 :: done → b.rest = todo ++ 34 :: trail →
      buffer.skipLoop quotes (b.length - b.index) b = some (b.advance todo.length, Bool.true) := by
  intro todo
  induction todo with
  | nil =>
    intro done b hbody hb htake hr
    obtain ⟨h1, h2, -, -, h5⟩ := rest_cons hb (by simpa using hr)
    have hle : b.index ≤ b.data.length := by
      have := hb; unfold buffer.InPlace at this; omega
    have hpar : precedingBackslashes (b.data.take b.index) % 2 = 0 := by
      rw [htake, precedingBackslashes_after pre done 34 (by decide)]
      simpa [hbody] using hesc.2
    rw [h5, buffer.skipLoop]
    simp [h1, h2, quotes, backslash_parity hle, hpar]
  | cons t ts ih =>
    intro done b hbody hb htake hr
    obtain ⟨h1, h2, h3, h4, h5⟩ := rest_cons hb (by simpa using hr)
    have hle : b.index ≤ b.data.length := by
      have := hb; unfold buffer.InPlace at this; omega
    have htake2 : (b.advance 1).data.take (b.advance 1).index = pre ++ 34 :: (done ++ [t]) := by
      rw [take_advance_one h2, htake]; simp
    have hnext := ih (done ++ [t]) (b.advance 1) (by simp [hbody]) h4 htake2 h3
    have hfin : (b.advance 1).advance ts.length = b.advance (t :: ts).length := by
      rw [advance_advance]; simp [Nat.add_comm]
    rw [hfin] at hnext
    rw [h5, buffer.skipLoop]
    simp only [h1, h2, if_true, advance_one_eq]
    by_cases ht : t = 34
    · have hpar : precedingBackslashes (b.data.take b.index) % 2 = 1 := by
        rw [htake, precedingBackslashes_after pre done 34 (by decide)]
        have := hesc.1 done.length (by simp [hbody])
          (by rw [hbody, ht, List.getElem?_append_right (Nat.le_refl _)]; simp)
        simpa [hbody] using this
      simp only [ht, quotes, beq_self_eq_true, if_true, backslash_parity hle, hpar,
        decide_True, Bool.not_true, Bool.false_eq_true, if_false]
      exact hnext
    · have ht2 : (t == quotes) = false := by simpa [quotes] using ht
      simp only [ht2, Bool.false_eq_true, if_false]
      exact hnext

/-- On an opening quote, a body whose quotes are all escaped and a closing
quote, `string()` stops on the closing quote without error. -/
theorem string_body {b : buffer} {body trail : List Nat} (hb : b.InPlace)
    (hr : b.rest = 34 :: (body ++ 34 :: trail)) (hesc : EscapedBody body) :
    b.string = some (b.advance (body.length + 1), none) := by
  obtain ⟨h1, h2, h3, h4, -⟩ := rest_cons hb hr
  have h3b : (b.advance 1).rest
      = (body ++ 34 :: trail).head (by simp) :: (body ++ 34 :: trail).tail := by
    rw [h3]; simp
  obtain ⟨g1, -, -, -, -⟩ := rest_cons h4 h3b
  have hstep : b.index + 1 < b.length := by simpa using g1
  have htake : (b.advance 1).data.take (b.advance 1).index = b.data.take b.index ++ 34 :: [] := by
    rw [take_advance_one h2]
  have hskip := skipLoop_body body trail (b.data.take b.index) hesc body [] (b.advance 1)
    (by simp) h4 htake h3
  unfold buffer.string
  rw [step_lt hstep]
  simp only [buffer.skip, hskip, Bool.not_true, Bool.false_eq_true, if_false, advance_advance]
  simp [Nat.add_comm]

/-- A string whose inner quotes are all escaped, between whitespace: the main
loop returns its node. -/
theorem base_string (key : List Nat) (index : Option Nat) (fuel : Nat) (buf : buffer)
    (current : Option Node) (lead body trail : List Nat)
    (hb : buf.InPlace) (hr : buf.rest = lead ++ (34 :: body ++ [34]) ++ trail)
    (hlead : Whitespace lead) (htrail : Whitespace trail) (hesc : EscapedBody body) :
    Unmarshal.base key index (fuel + 2) buf current
      = Outcome.returned (some (Node.mk current buf.data
          (buf.index + lead.length, buf.index + lead.length + (34 :: body ++ [34]).length)
          NodeType.String key index)) none := by
  have hr1 : buf.rest = lead ++ 34 :: (body ++ 34 :: trail) := by simpa using hr
  have hr2 : (buf.advance lead.length).rest = 34 :: (body ++ 34 :: trail) :=
    rest_after_ws hr1
  have hb2 := inPlace_advance hb lead.length
  have hstr := string_body hb2 hr2 hesc
  have hr3 : (((buf.advance lead.length).advance (body.length + 1)).advance 1).rest = trail := by
    rw [advance_advance, rest_advance, hr2]
    have : body.length + 1 + 1 = (34 :: (body ++ [34])).length := by simp
    rw [this]
    have : 34 :: (body ++ 34 :: trail) = (34 :: (body ++ [34])) ++ trail := by simp
    rw [this, List.drop_left]
  have hfin := step_then_trailing key index fuel
    (some ((newNode current (buf.advance lead.length) NodeType.String key index).setEnd
      (((buf.advance lead.length).advance (body.length + 1)).index + 1)))
    (inPlace_advance hb2 (body.length + 1)) hr3 htrail
  have hnode : (newNode current (buf.advance lead.length) NodeType.String key index).setEnd
      (((buf.advance lead.length).advance (body.length + 1)).index + 1)
      = Node.mk current buf.data
          (buf.index + lead.length, buf.index + lead.length + (34 :: body ++ [34]).length)
          NodeType.String key index := by
    simp only [newNode, Node.setEnd, advance_data, advance_index]
    congr 2
    simp
    omega
  rw [← hnode, Unmarshal.base, first_found hb hr1 hlead (by decide)]
  simpa [bracesL, bracketL, quotes, hstr] using hfin

/-! ## What the scanners have read when they succeed -/

theorem rest_cases {b : buffer} (hb : b.InPlace) :
    (b.rest = [] ∧ ¬ b.index < b.length)
      ∨ ∃ c r, b.rest = c :: r ∧ b.index < b.length ∧ b.data[b.index]? = some c := by
  cases hr : b.rest with
  | nil => exact Or.inl ⟨rfl, rest_nil hb hr⟩
  | cons c r =>
    obtain ⟨h1, h2, -, -, -⟩ := rest_cons hb hr
    exact Or.inr ⟨c, r, rfl, h1, h2⟩

/-- When `first()` returns a byte, the cursor is on that byte, and the buffer
is otherwise unchanged; its only error is `io.EOF`. -/
theorem firstLoop_inv :
    ∀ (n : Nat) (b b1 : buffer) (c : Nat) (err : Option Error), b.InPlace →
      n = b.length - b.index → buffer.firstLoop n b = some (b1, c, err) →
      b1.InPlace ∧ b1.data = b.data
        ∧ ((err = none ∧ ∃ r, b1.rest = c :: r) ∨ err = some Error.EOF) := by
  intro n
  induction n with
  | zero =>
    intro b b1 c err hb _ h
    simp only [buffer.firstLoop, Option.some.injEq, Prod.mk.injEq] at h
    obtain ⟨rfl, -, rfl⟩ := h
    exact ⟨hb, rfl, Or.inr rfl⟩
  | succ m ih =>
    intro b b1 c err hb hn h
    rcases rest_cases hb with ⟨-, hlt⟩ | ⟨x, r, hr, hlt, hget⟩
    · omega
    · rw [buffer.firstLoop] at h
      simp only [hlt, hget, if_true] at h
      split at h
      · simp only [Option.some.injEq, Prod.mk.injEq] at h
        obtain ⟨rfl, rfl, rfl⟩ := h
        exact ⟨hb, rfl, Or.inl ⟨rfl, r, hr⟩⟩
      · have := ih (b.advance 1) b1 c err (inPlace_advance hb 1)
          (by simp only [advance_length, advance_index]; omega) h
        simpa using this

theorem first_inv {b b1 : buffer} {c : Nat} {err : Option Error} (hb : b.InPlace)
    (h : b.first = some (b1, c, err)) :
    b1.InPlace ∧ b1.data = b.data
      ∧ ((err = none ∧ ∃ r, b1.rest = c :: r) ∨ err = some Error.EOF) :=
  firstLoop_inv _ b b1 c err hb rfl h

/-- Where the loop of `numeric()` stops at a byte, it gives no error only if
the digit bit is set, and else the `UnexpectedSymbol` error of that byte. -/
theorem numericLoop_stop {b : buffer} {c : Nat} {r : List Nat} {find : Nat} (hb : b.InPlace)
    (hr : b.rest = c :: r) (hs : numStep find c = none) :
    ∃ e, buffer.numericLoop (b.length - b.index) b find = some (b, e)
      ∧ ((e = none ∧ find &&& 4 ≠ 0) ∨ e = some (errorSymbol c b.index)) := by
  obtain ⟨h1, h2, -, -, h5⟩ := rest_cons hb hr
  rw [h5, buffer.numericLoop]
  simp only [h1, h2, if_true]
  unfold numStep at hs
  split at hs
  · simp at hs
  · rename_i hd
    rw [if_neg hd]
    split at hs
    · rename_i hdot
      rw [if_pos hdot]
      split at hs
      · simp at hs
      · rename_i h3
        rw [if_neg h3]
        exact ⟨_, rfl, Or.inr rfl⟩
    · rename_i hdot
      rw [if_neg hdot]
      split at hs
      · rename_i hsg
        rw [if_pos hsg]
        split at hs
        · simp at hs
        · rename_i h3
          rw [if_neg h3]
          exact ⟨_, rfl, Or.inr rfl⟩
      · rename_i hsg
        rw [if_neg hsg]
        split at hs
        · rename_i he
          rw [if_pos he]
          split at hs
          · simp at hs
          · rename_i h3
            rw [if_neg h3]
            exact ⟨_, rfl, Or.inr rfl⟩
        · rename_i he
          rw [if_neg he]
          by_cases h4 : find &&& 4 != 0
          · rw [if_pos h4]
            exact ⟨_, rfl, Or.inl ⟨rfl, by simpa using h4⟩⟩
          · rw [if_neg h4]
            exact ⟨_, rfl, Or.inr rfl⟩

/-- When `numeric()` ends with no error or with `io.EOF`, it has stepped over
a run of number bytes that ends with the digit bit set, and the cursor is just
after that run. -/
theorem numericLoop_inv :
    ∀ (l : List Nat) (b b1 : buffer) (find : Nat) (err : Option Error), b.InPlace →
      b.rest = l → buffer.numericLoop (b.length - b.index) b find = some (b1, err) →
      (err = none ∨ err = some Error.EOF) →
      ∃ (tok : List Nat) (f : Nat), b.rest = tok ++ b1.rest ∧ b1 = b.advance tok.length
        ∧ numRun find tok = some f ∧ f &&& 4 ≠ 0 := by
  intro l
  induction l with
  | nil =>
    intro b b1 find err hb hr h herr
    rw [numericLoop_end hb hr, buffer.numericEnd] at h
    split at h
    · rename_i hf
      simp only [Option.some.injEq, Prod.mk.injEq] at h
      obtain ⟨rfl, -⟩ := h
      exact ⟨[], find, by simp, rfl, rfl, by simpa using hf⟩
    · simp only [Option.some.injEq, Prod.mk.injEq] at h
      obtain ⟨-, rfl⟩ := h
      rcases herr with h | h <;> simp [errorEOF] at h
  | cons c r ih =>
    intro b b1 find err hb hr h herr
    cases hs : numStep find c with
    | none =>
      obtain ⟨e, he, hcase⟩ := numericLoop_stop hb hr hs
      rw [he] at h
      simp only [Option.some.injEq, Prod.mk.injEq] at h
      obtain ⟨rfl, rfl⟩ := h
      rcases hcase with ⟨-, hf⟩ | he2
      · exact ⟨[], find, by simp, rfl, rfl, hf⟩
      · subst he2
        rcases herr with h | h <;> simp [errorSymbol] at h
    | some f1 =>
      obtain ⟨-, -, h3, h4, -⟩ := rest_cons hb hr
      rw [numericLoop_step hb hr hs] at h
      obtain ⟨tok, f, ht1, ht2, ht3, ht4⟩ := ih (b.advance 1) b1 f1 err h4 h3 h herr
      refine ⟨c :: tok, f, ?_, ?_, ?_, ht4⟩
      · rw [hr, List.cons_append, ← ht1, h3]
      · rw [ht2, advance_advance]; simp [Nat.add_comm]
      · rw [numRun, hs]; exact ht3

/-- When the loop of `word()` gives no error, it has read bytes that spell
the rest of the word in either case, and the cursor is on the last of them. -/
theorem wordLoop_inv (word : List Nat) :
    ∀ (todo : List Nat) (b b1 : buffer) (idx : Nat), todo ≠ [] → word.drop idx = todo →
      b.InPlace → buffer.wordLoop word (b.length - b.index) b idx = some (b1, none) →
      ∃ tok r : List Nat, b.rest = tok ++ r
        ∧ List.Forall₂ (fun c x => c = x ∨ c = (x + 256 - 32) % 256) tok todo
        ∧ b1 = b.advance (todo.length - 1) := by
  intro todo
  induction todo with
  | nil => intro b b1 idx h; exact absurd rfl h
  | cons x xs ih =>
    intro b b1 idx _ hword hb h
    obtain ⟨g1, g2, g3⟩ := drop_cons_inv hword
    rcases rest_cases hb with ⟨-, hlt⟩ | ⟨c, r, hr, hlt, hget⟩
    · have hz : b.length - b.index = 0 := by omega
      rw [hz] at h
      have hne : (idx != word.length) = true := by simpa using Nat.ne_of_lt g2
      simp [buffer.wordLoop, buffer.wordEnd, hne] at h
    · obtain ⟨-, -, h3, h4, h5⟩ := rest_cons hb hr
      rw [h5, buffer.wordLoop] at h
      simp only [hlt, hget, g1, if_true, advance_one_eq] at h
      split at h
      · simp at h
      · rename_i hcond
        have hcx : c = x ∨ c = (x + 256 - 32) % 256 := by
          simp only [Bool.and_eq_true, bne_iff_ne, ne_eq, not_and, Decidable.not_not] at hcond
          by_cases hc : c = x
          · exact Or.inl hc
          · exact Or.inr (hcond hc)
        split at h
        · rename_i hge
          have hlen : idx + 1 = word.length := by omega
          have hxs : xs = [] := by
            rw [← g3]; exact List.drop_of_length_le (by omega)
          simp only [buffer.wordEnd, hlen, bne_self_eq_false, Bool.false_eq_true, if_false,
            Option.some.injEq, Prod.mk.injEq, and_true] at h
          subst hxs
          exact ⟨[c], r, by simpa using hr, List.Forall₂.cons hcx List.Forall₂.nil,
            by simp [← h]⟩
        · rename_i hge
          have hxs : xs ≠ [] := by
            intro hnil
            rw [hnil] at g3
            have := drop_nil_inv g3
            omega
          obtain ⟨tok, r2, ht1, ht2, ht3⟩ := ih (b.advance 1) b1 (idx + 1) hxs g3 h4 h
          refine ⟨c :: tok, r2, ?_, List.Forall₂.cons hcx ht2, ?_⟩
          · rw [hr, List.cons_append, ← ht1, h3]
          · rw [ht3, advance_advance]
            have : 0 < xs.length := List.length_pos.mpr hxs
            congr 1
            simp only [List.length_cons]
            omega

theorem word_inv {b b1 : buffer} {word : List Nat} (hne : word ≠ []) (hb : b.InPlace)
    (h : b.word word = some (b1, none)) :
    ∃ tok r : List Nat, b.rest = tok ++ r
      ∧ List.Forall₂ (fun c x => c = x ∨ c = (x + 256 - 32) % 256) tok word
      ∧ b1 = b.advance (word.length - 1) :=
  wordLoop_inv word word b b1 0 hne rfl hb h

theorem code_spelled {w word : List Nat}
    (h : List.Forall₂ (fun c x => c = x ∨ c = (x + 256 - 32) % 256) w word)
    (hx : ∀ x ∈ word, 32 ≤ x ∧ x < 256) : SpelledAnyCase w word := by
  induction h with
  | nil => exact List.Forall₂.nil
  | @cons c x w word hcx _ ih =>
    refine List.Forall₂.cons ?_ (ih (fun y hy => hx y (by simp [hy])))
    have := hx x (by simp)
    omega

theorem escapedAfter_nil_left (body : List Nat) : EscapedAfter [] body ↔ EscapedBody body := by
  simp [EscapedAfter, EscapedBody]

theorem escapedAfter_cons {done todo : List Nat} {c : Nat}
    (h : EscapedAfter (done ++ [c]) todo) (hc : c = 34 → precedingBackslashes done % 2 = 1) :
    EscapedAfter done (c :: todo) := by
  refine ⟨?_, by simpa using h.2⟩
  intro j hj hget
  cases j with
  | zero =>
    simp only [List.getElem?_cons_zero, Option.some.injEq] at hget
    simpa using hc hget
  | succ i =>
    have := h.1 i (by simpa using hj) (by simpa using hget)
    simpa using this

/-- When `skip(quotes)` finds a quote, every quote it ran over was escaped and
the one it stops on is not. -/
theorem skipLoop_inv (pre : List Nat) :
    ∀ (l : List Nat) (b b1 : buffer) (done : List Nat), b.InPlace → b.rest = l →
      b.data.take b.index = pre ++ 34 :: done →
      buffer.skipLoop quotes (b.length - b.index) b = some (b1, Bool.true) →
      ∃ todo trail : List Nat, b.rest = todo ++ 34 :: trail ∧ b1 = b.advance todo.length
        ∧ EscapedAfter done todo := by
  intro l
  induction l with
  | nil =>
    intro b b1 done hb hr _ h
    have hlt := rest_nil hb hr
    have hz : b.length - b.index = 0 := by omega
    rw [hz] at h
    simp [buffer.skipLoop] at h
  | cons c r ih =>
    intro b b1 done hb hr htake h
    obtain ⟨h1, h2, h3, h4, h5⟩ := rest_cons hb hr
    have hle : b.index ≤ b.data.length := by
      have := hb; unfold buffer.InPlace at this; omega
    have htake2 : (b.advance 1).data.take (b.advance 1).index = pre ++ 34 :: (done ++ [c]) := by
      rw [take_advance_one h2, htake]; simp
    have hpb : precedingBackslashes (b.data.take b.index) = precedingBackslashes done := by
      rw [htake, precedingBackslashes_after pre done 34 (by decide)]
    rw [h5, buffer.skipLoop] at h
    simp only [h1, h2, if_true, advance_one_eq, backslash_parity hle, hpb] at h
    have hcont : buffer.skipLoop quotes ((b.advance 1).length - (b.advance 1).index)
        (b.advance 1) = some (b1, Bool.true) → (c = 34 → precedingBackslashes done % 2 = 1) →
        ∃ todo trail : List Nat, b.rest = todo ++ 34 :: trail ∧ b1 = b.advance todo.length
          ∧ EscapedAfter done todo := by
      intro hk hc
      obtain ⟨todo, trail, ht1, ht2, ht3⟩ := ih (b.advance 1) b1 (done ++ [c]) h4 h3 htake2 hk
      refine ⟨c :: todo, trail, ?_, ?_, escapedAfter_cons ht3 hc⟩
      · rw [hr, List.cons_append, ← ht1, h3]
      · rw [ht2, advance_advance]; simp [Nat.add_comm]
    by_cases hc : c = 34
    · by_cases hpar : precedingBackslashes done % 2 = 1
      · simp only [hc, quotes, beq_self_eq_true, if_true, hpar, decide_True, Bool.not_true,
          Bool.false_eq_true, if_false] at h
        exact hcont h (fun _ => hpar)
      · simp only [hc, quotes, beq_self_eq_true, if_true, hpar, decide_False, Bool.not_false,
          Option.some.injEq, Prod.mk.injEq, and_true] at h
        subst h
        refine ⟨[], r, by simpa [hc] using hr, rfl, ?_, ?_⟩
        · intro j hj; simp at hj
        · simp only [List.append_nil]; omega
    · have hc2 : (c == quotes) = false := by simpa [quotes] using hc
      simp only [hc2, Bool.false_eq_true, if_false] at h
      exact hcont h (fun h34 => absurd h34 hc)

/-- When `string()` on an opening quote gives no error, it has read a body
whose quotes are all escaped and the cursor is on the closing quote. -/
theorem string_inv {b b1 : buffer} {r : List Nat} (hb : b.InPlace) (hr : b.rest = 34 :: r)
    (h : b.string = some (b1, none)) :
    ∃ body trail : List Nat, b.rest = 34 :: (body ++ 34 :: trail)
      ∧ b1 = b.advance (body.length + 1) ∧ EscapedBody body := by
  obtain ⟨-, h2, h3, h4, -⟩ := rest_cons hb hr
  unfold buffer.string at h
  by_cases hstep : b.index + 1 < b.length
  · rw [step_lt hstep] at h
    simp only [buffer.skip] at h
    cases hk : buffer.skipLoop quotes ((b.advance 1).length - (b.advance 1).index)
        (b.advance 1) with
    | none => rw [hk] at h; simp at h
    | some res =>
      obtain ⟨b2, found⟩ := res
      rw [hk] at h
      cases found with
      | false => simp at h
      | true =>
        simp only [Bool.not_true, Bool.false_eq_true, if_false, Option.some.injEq,
          Prod.mk.injEq, and_true] at h
        subst h
        have htake : (b.advance 1).data.take (b.advance 1).index
            = b.data.take b.index ++ 34 :: [] := by
          rw [take_advance_one h2]
        obtain ⟨body, trail, hb1, hb2, hb3⟩ :=
          skipLoop_inv (b.data.take b.index) r (b.advance 1) b2 [] h4 h3 htake hk
        refine ⟨body, trail, ?_, ?_, (escapedAfter_nil_left body).mp hb3⟩
        · rw [hr, ← hb1, h3]
        · rw [hb2, advance_advance]; simp [Nat.add_comm]
  · rw [step_ge hstep] at h
    simp at h

/-! ## Round trip -/

theorem outer_success {err : Option Error} {current : Option Node} {r : Node}
    (h : Unmarshal.outer err current = Outcome.returned (some r) none) :
    err = some Error.EOF ∧ current = some r := by
  unfold Unmarshal.outer at h
  split at h
  · rename_i he
    simp only [Outcome.returned.injEq, and_true] at h
    exact ⟨by simpa using he, h⟩
  · simp at h

theorem string_err {b b1 : buffer} {e : Error} (h : b.string = some (b1, some e)) :
    e ≠ Error.EOF := by
  unfold buffer.string at h
  split at h
  · simp only [Option.some.injEq, Prod.mk.injEq] at h
    rw [← h.2]; simp [errorEOF]
  · split at h
    · simp at h
    · split at h
      · simp only [Option.some.injEq, Prod.mk.injEq] at h
        rw [← h.2]; simp [errorEOF]
      · simp at h

theorem wordLoop_err (word : List Nat) :
    ∀ (n : Nat) (b b1 : buffer) (idx : Nat) (e : Error),
      buffer.wordLoop word n b idx = some (b1, some e) → e ≠ Error.EOF := by
  have hend : ∀ (b b1 : buffer) (idx : Nat) (e : Error),
      b.wordEnd word idx = (b1, some e) → e ≠ Error.EOF := by
    intro b b1 idx e h
    unfold buffer.wordEnd at h
    split at h
    · simp only [Prod.mk.injEq, Option.some.injEq] at h
      rw [← h.2]; simp [errorEOF]
    · simp at h
  intro n
  induction n with
  | zero =>
    intro b b1 idx e h
    simp only [buffer.wordLoop, Option.some.injEq] at h
    exact hend b b1 idx e h
  | succ m ih =>
    intro b b1 idx e h
    rw [buffer.wordLoop] at h
    repeat' split at h
    all_goals first
      | exact ih _ _ _ _ h
      | (simp only [Option.some.injEq] at h; exact hend _ _ _ _ h)
      | (simp only [Option.some.injEq, Prod.mk.injEq] at h; rw [← h.2]; simp [errorSymbol])
      | simp at h

theorem source_at {data tok rest : List Nat} {i : Nat} (h : data.drop i = tok ++ rest)
    (p : Option Node) (t : NodeType) (k : List Nat) (ix : Option Nat) :
    (Node.mk p data (i, i + tok.length) t k ix).Source = tok := by
  simp [Node.Source, Node.data, Node.borders, h]

theorem reparses_literal {n : Node} {tok word : List Nat} {kind : NodeType}
    (hs : n.Source = tok) (ht : n.Type = kind) (hw : SpelledAnyCase tok word)
    (hword : (word = _null ∧ kind = NodeType.Null) ∨ (word = _true ∧ kind = NodeType.Bool)
      ∨ (word = _false ∧ kind = NodeType.Bool)) : Reparses n := by
  intro fuel
  have h := base_literal [] none fuel (newBuffer tok false) none [] tok [] word kind
    (newBuffer_inPlace _) (by simp [newBuffer_rest]) (by decide) (by decide) hw hword
  refine ⟨Node.mk none tok (0, tok.length) kind [] none, ?_, by rw [ht]; rfl, by rw [hs]; rfl, ?_⟩
  · rw [hs]; simpa [Unmarshal, newBuffer] using h
  · rw [hs]; simp [Node.Source, Node.data, Node.borders]

theorem reparses_numeric {n : Node} {tok : List Nat} {f : Nat}
    (hs : n.Source = tok) (ht : n.Type = NodeType.Numeric) (hrun : numRun 0 tok = some f)
    (hf : f &&& 4 ≠ 0) : Reparses n := by
  intro fuel
  have h := base_numeric [] none fuel (newBuffer tok false) none [] tok [] f
    (newBuffer_inPlace _) (by simp [newBuffer_rest]) (by decide) (by decide) hrun hf
  refine ⟨Node.mk none tok (0, tok.length) NodeType.Numeric [] none, ?_, by rw [ht]; rfl,
    by rw [hs]; rfl, ?_⟩
  · rw [hs]; simpa [Unmarshal, newBuffer] using h
  · rw [hs]; simp [Node.Source, Node.data, Node.borders]

theorem reparses_string {n : Node} {body : List Nat}
    (hs : n.Source = 34 :: body ++ [34]) (ht : n.Type = NodeType.String)
    (hesc : EscapedBody body) : Reparses n := by
  intro fuel
  have h := base_string [] none fuel (newBuffer (34 :: body ++ [34]) false) none [] body []
    (newBuffer_inPlace _) (by simp [newBuffer_rest]) (by decide) (by decide) hesc
  refine ⟨Node.mk none (34 :: body ++ [34]) (0, (34 :: body ++ [34]).length) NodeType.String
    [] none, ?_, by rw [ht]; rfl, by rw [hs]; rfl, ?_⟩
  · rw [hs]; simpa [Unmarshal, newBuffer] using h
  · rw [hs]; simp [Node.Source, Node.data, Node.borders]

theorem literal_node_reparses {b1 b2 : buffer} {word : List Nat} {kind : NodeType}
    (hword : (word = _null ∧ kind = NodeType.Null) ∨ (word = _true ∧ kind = NodeType.Bool)
      ∨ (word = _false ∧ kind = NodeType.Bool))
    (hb1 : b1.InPlace) (h : b1.word word = some (b2, none)) (current : Option Node)
    (key : List Nat) (index : Option Nat) :
    b2.InPlace ∧ Reparses ((newNode current b1 kind key index).setEnd (b2.index + 1)) := by
  have hx : ∀ x ∈ word, 32 ≤ x ∧ x < 256 := by
    rcases hword with ⟨h, -⟩ | ⟨h, -⟩ | ⟨h, -⟩ <;> subst h <;> simp [_null, _true, _false]
  have hne : word ≠ [] := by
    rcases hword with ⟨h, -⟩ | ⟨h, -⟩ | ⟨h, -⟩ <;> subst h <;> simp [_null, _true, _false]
  obtain ⟨tok, r, hr, hm, rfl⟩ := word_inv hne hb1 h
  have hlen : tok.length = word.length := hm.length_eq
  have hpos : 0 < word.length := List.length_pos.mpr hne
  refine ⟨inPlace_advance hb1 _, ?_⟩
  have hend : (b1.advance (word.length - 1)).index + 1 = b1.index + tok.length := by
    simp only [advance_index]; omega
  rw [hend]
  exact reparses_literal (source_at hr current kind key index) rfl (code_spelled hm hx) hword

theorem numeric_node_reparses {b1 b2 : buffer} {err : Option Error} (hb1 : b1.InPlace)
    (h : b1.numeric = some (b2, err)) (herr : err = none ∨ err = some Error.EOF)
    (current : Option Node) (key : List Nat) (index : Option Nat) :
    b2.InPlace
      ∧ Reparses ((newNode current b1 NodeType.Numeric key index).setEnd b2.index) := by
  obtain ⟨tok, f, hr, rfl, hrun, hf⟩ := numericLoop_inv _ b1 b2 0 err hb1 rfl h herr
  refine ⟨inPlace_advance hb1 _, ?_⟩
  exact reparses_numeric (source_at hr current NodeType.Numeric key index) rfl hrun hf

theorem string_node_reparses {b1 b2 : buffer} {r : List Nat} (hb1 : b1.InPlace)
    (hr : b1.rest = 34 :: r) (h : b1.string = some (b2, none)) (current : Option Node)
    (key : List Nat) (index : Option Nat) :
    b2.InPlace
      ∧ Reparses ((newNode current b1 NodeType.String key index).setEnd (b2.index + 1)) := by
  obtain ⟨body, trail, hr2, rfl, hesc⟩ := string_inv hb1 hr h
  refine ⟨inPlace_advance hb1 _, ?_⟩
  have hend : (b1.advance (body.length + 1)).index + 1
      = b1.index + (34 :: body ++ [34]).length := by
    simp only [advance_index, List.length_cons, List.length_append, List.length_nil]; omega
  have hr3 : b1.data.drop b1.index = (34 :: body ++ [34]) ++ trail := by
    have : b1.rest = (34 :: body ++ [34]) ++ trail := by rw [hr2]; simp
    exact this
  rw [hend]
  exact reparses_string (source_at hr3 current NodeType.String key index) rfl hesc

/-- The end of the String, Null and Bool cases of the main loop, for a node
that round-trips. -/
theorem close_roundtrip (key : List Nat) (index : Option Nat) (fuel : Nat) {b2 : buffer}
    {n r : Node} (hb2 : b2.InPlace) (hn : Reparses n)
    (ih : ∀ (buf : buffer) (current : Option Node) (r : Node), buf.InPlace →
      (∀ c, current = some c → Reparses c) →
      Unmarshal.base key index fuel buf current = Outcome.returned (some r) none → Reparses r)
    (h : (match b2.step with
      | (_, some err) => Unmarshal.outer (some err) (some n)
      | (buf, none) => Unmarshal.base key index fuel buf (some n))
      = Outcome.returned (some r) none) : Reparses r := by
  by_cases hs : b2.index + 1 < b2.length
  · rw [step_lt hs] at h
    exact ih _ _ _ (inPlace_advance hb2 1) (by intro c hc; cases hc; exact hn) h
  · rw [step_ge hs] at h
    obtain ⟨-, hc⟩ := outer_success h
    cases hc
    exact hn

/-- Every root that the main loop returns round-trips, when the node it
starts from does. -/
theorem base_roundtrip (key : List Nat) (index : Option Nat) :
    ∀ (fuel : Nat) (buf : buffer) (current : Option Node) (r : Node), buf.InPlace →
      (∀ c, current = some c → Reparses c) →
      Unmarshal.base key index fuel buf current = Outcome.returned (some r) none →
      Reparses r := by
  intro fuel
  induction fuel with
  | zero => intro buf current r _ _ h; simp [Unmarshal.base] at h
  | succ n ih =>
    intro buf current r hb hcur h
    rw [Unmarshal.base] at h
    cases hfirst : buf.first with
    | none => rw [hfirst] at h; simp at h
    | some res =>
      obtain ⟨b1, c, err⟩ := res
      rw [hfirst] at h
      obtain ⟨hb1, -, hcase⟩ := first_inv hb hfirst
      rcases hcase with ⟨rfl, rest, hrest⟩ | rfl
      · simp only [] at h
        by_cases h1 : (c == bracesL) = true
        · rw [if_pos h1] at h; exact ih _ _ _ hb1 hcur h
        rw [if_neg h1] at h
        by_cases h2 : (c == bracketL) = true
        · rw [if_pos h2] at h; exact ih _ _ _ hb1 hcur h
        rw [if_neg h2] at h
        by_cases h3 : (c == quotes) = true
        · rw [if_pos h3] at h
          have hc : c = 34 := by simpa [quotes] using h3
          subst hc
          cases hstr : b1.string with
          | none => rw [hstr] at h; simp at h
          | some res =>
            obtain ⟨b2, e⟩ := res
            rw [hstr] at h
            cases e with
            | some e =>
              simp only [] at h
              obtain ⟨he, -⟩ := outer_success h
              exact absurd (Option.some.inj he) (string_err hstr)
            | none =>
              simp only [] at h
              obtain ⟨hb2, hn⟩ := string_node_reparses hb1 hrest hstr current key index
              exact close_roundtrip key index n hb2 hn ih h
        rw [if_neg h3] at h
        by_cases h4 : ((decide (c ≥ 48) && decide (c ≤ 57)) || c == 46 || c == 43 || c == 45
            || c == 101 || c == 69) = true
        · rw [if_pos h4] at h
          cases hnum : b1.numeric with
          | none => rw [hnum] at h; simp at h
          | some res =>
            obtain ⟨b2, e⟩ := res
            rw [hnum] at h
            cases e with
            | some e =>
              simp only [] at h
              obtain ⟨he, hc⟩ := outer_success h
              obtain ⟨-, hn⟩ := numeric_node_reparses hb1 hnum (Or.inr he) current key index
              cases hc
              exact hn
            | none =>
              simp only [] at h
              obtain ⟨hb2, hn⟩ := numeric_node_reparses hb1 hnum (Or.inl rfl) current key index
              exact ih _ _ _ hb2 (by intro c hc; cases hc; exact hn) h
        rw [if_neg h4] at h
        have hlit : ∀ (word : List Nat) (kind : NodeType),
            ((word = _null ∧ kind = NodeType.Null) ∨ (word = _true ∧ kind = NodeType.Bool)
              ∨ (word = _false ∧ kind = NodeType.Bool)) →
            (match b1.word word with
              | none => Outcome.panicked
              | some (buf, err) =>
                match err with
                | some err => Unmarshal.outer (some err)
                    (some ((newNode current b1 kind key index).setEnd (buf.index + 1)))
                | none =>
                  match buf.step with
                  | (_, some err) => Unmarshal.outer (some err)
                      (some ((newNode current b1 kind key index).setEnd (buf.index + 1)))
                  | (buf1, none) => Unmarshal.base key index n buf1
                      (some ((newNode current b1 kind key index).setEnd (buf.index + 1))))
              = Outcome.returned (some r) none → Reparses r := by
          intro word kind hword hm
          cases hw : b1.word word with
          | none => rw [hw] at hm; simp at hm
          | some res =>
            obtain ⟨b2, e⟩ := res
            rw [hw] at hm
            cases e with
            | some e =>
              simp only [] at hm
              obtain ⟨he, -⟩ := outer_success hm
              exact absurd (Option.some.inj he) (wordLoop_err word _ _ _ _ _ hw)
            | none =>
              simp only [] at hm
              obtain ⟨hb2, hn⟩ := literal_node_reparses hword hb1 hw current key index
              exact close_roundtrip key index n hb2 hn ih hm
        by_cases h5 : (c == 110 || c == 78) = true
        · rw [if_pos h5] at h
          exact hlit _null NodeType.Null (Or.inl ⟨rfl, rfl⟩) h
        rw [if_neg h5] at h
        by_cases h6 : (c == 116 || c == 84 || c == 102 || c == 70) = true
        · rw [if_pos h6] at h
          by_cases h7 : (c == 116 || c == 84) = true
          · rw [if_pos h7] at h
            exact hlit _true NodeType.Bool (Or.inr (Or.inl ⟨rfl, rfl⟩)) h
          · rw [if_neg h7] at h
            exact hlit _false NodeType.Bool (Or.inr (Or.inr ⟨rfl, rfl⟩)) h
        rw [if_neg h6] at h
        simp at h
      · simp only [] at h
        obtain ⟨-, hc⟩ := outer_success h
        exact hcur r hc

/-- With `clone = true`, `Unmarshal` never returns a non-nil root. -/
theorem clone_no_root (fuel : Nat) (body : List Nat) (r : Node) (err : Option Error) :
    Unmarshal fuel body true ≠ Outcome.returned (some r) err := by
  cases fuel with
  | zero => simp [Unmarshal, Unmarshal.base]
  | succ n =>
    cases body with
    | nil => simp [Unmarshal, Unmarshal.base, newBuffer, buffer.first, buffer.firstLoop,
        Unmarshal.outer]
    | cons c cs => simp [Unmarshal, Unmarshal.base, newBuffer, buffer.first, buffer.firstLoop]

/-! ## The iteration bound

Once the main loop has left (it returned or panicked), more iterations give
the same outcome. -/

theorem outer_not_running (err : Option Error) (current : Option Node) :
    Unmarshal.outer err current ≠ Outcome.running := by
  unfold Unmarshal.outer; split <;> simp

theorem base_mono (key : List Nat) (index : Option Nat) :
    ∀ (fuel : Nat) (buf : buffer) (current : Option Node),
      Unmarshal.base key index fuel buf current ≠ Outcome.running →
      Unmarshal.base key index (fuel + 1) buf current
        = Unmarshal.base key index fuel buf current := by
  intro fuel
  induction fuel with
  | zero => intro buf current h; exact absurd rfl h
  | succ n ih =>
    intro buf current h
    rw [Unmarshal.base] at h
    conv_lhs => rw [Unmarshal.base]
    conv_rhs => rw [Unmarshal.base]
    cases hfirst : buf.first with
    | none => rfl
    | some res =>
      obtain ⟨b1, c, err⟩ := res
      rw [hfirst] at h
      cases err with
      | some e => rfl
      | none =>
        simp only [] at h ⊢
        repeat' split
        all_goals first
          | rfl
          | (apply ih; simp_all)

theorem Unmarshal_mono (fuel : Nat) (body : List Nat) (clone : Bool)
    (h : Unmarshal fuel body clone ≠ Outcome.running) :
    ∀ k : Nat, Unmarshal (fuel + k) body clone = Unmarshal fuel body clone := by
  intro k
  induction k with
  | zero => rfl
  | succ j ih =>
    have hj : Unmarshal (fuel + j) body clone ≠ Outcome.running := by rw [ih]; exact h
    have := base_mono [] none (fuel + j) (newBuffer body clone) none hj
    exact this.trans ih

/-! ## `NewFunction` -/

theorem newFunction_absent {A Fn : Type} (ToLower : String → String)
    (Functions : String → Option (Option Fn)) (alias1 : String) (arguments : Option A)
    (h : Functions (ToLower alias1) = none) :
    tokens.NewFunction ToLower Functions alias1 arguments
      = (none, some (tokens.GoError.Errorf "function %q not found" (ToLower alias1))) := by
  simp only [tokens.NewFunction, h]

theorem newFunction_present {A Fn : Type} (ToLower : String → String)
    (Functions : String → Option (Option Fn)) (alias1 : String) (arguments : Option A)
    {f : Option Fn} (h : Functions (ToLower alias1) = some f) :
    tokens.NewFunction ToLower Functions alias1 arguments
      = (some { Alias := ToLower alias1, Arguments := arguments }, none) := by
  simp only [tokens.NewFunction, h]

/-! ## Where `word()` fails -/

/-- After bytes that spell a part of the word, a byte that is neither case of
the next letter makes `word()` fail with the `UnexpectedSymbol` error of that
byte and its position. -/
theorem wordLoop_mismatch (word : List Nat) :
    ∀ (tpre pre : List Nat),
      List.Forall₂ (fun c x => c = x ∨ c = (x + 256 - 32) % 256) pre tpre →
      ∀ (b : buffer) (idx c x : Nat) (r trest : List Nat),
        word.drop idx = tpre ++ x :: trest → b.InPlace → b.rest = pre ++ c :: r →
        ¬ (c = x ∨ c = (x + 256 - 32) % 256) →
        buffer.wordLoop word (b.length - b.index) b idx
          = some (b.advance pre.length, some (errorSymbol c (b.index + pre.length))) := by
  intro tpre pre hm
  induction hm with
  | nil =>
    intro b idx c x r trest hword hb hr hcx
    obtain ⟨h1, h2, -, -, h5⟩ := rest_cons hb (by simpa using hr)
    obtain ⟨g1, -, -⟩ := drop_cons_inv (by simpa using hword)
    have hcond : (c != x && c != (x + 256 - 32) % 256) = true := by
      simp only [Bool.and_eq_true, bne_iff_ne, ne_eq]
      exact ⟨fun h => hcx (Or.inl h), fun h => hcx (Or.inr h)⟩
    rw [h5, buffer.wordLoop]
    simp only [h1, h2, g1, hcond, if_true]
    simp
  | @cons c0 x0 pre tpre hcx0 _ ih =>
    intro b idx c x r trest hword hb hr hcx
    obtain ⟨h1, h2, h3, h4, h5⟩ := rest_cons hb (by simpa using hr)
    obtain ⟨g1, g2, g3⟩ := drop_cons_inv (by simpa using hword)
    have hcond : (c0 != x0 && c0 != (x0 + 256 - 32) % 256) = false := by
      rcases hcx0 with h | h
      · simp [h]
      · rw [Bool.and_eq_false_iff]; right; simp [h]
    have hlen : idx + 1 < word.length := by
      have hd : word.drop (idx + 1) = (tpre ++ x :: trest).head (by simp)
          :: (tpre ++ x :: trest).tail := by rw [g3]; simp
      exact (drop_cons_inv hd).2.1
    have hnot : ¬ (idx + 1 ≥ word.length) := by omega
    rw [h5, buffer.wordLoop]
    simp only [h1, h2, g1, hcond, if_true, Bool.false_eq_true, if_false, advance_one_eq]
    rw [if_neg hnot]
    have hnext := ih (b.advance 1) (idx + 1) c x r trest g3 h4 h3 hcx
    simp only [advance_length, advance_index] at hnext
    rw [hnext, advance_advance]
    have e1 : 1 + pre.length = (c0 :: pre).length := by simp [Nat.add_comm]
    have e2 : b.index + 1 + pre.length = b.index + (c0 :: pre).length := by
      simp only [List.length_cons]; omega
    rw [e1, e2]

/-- After bytes that spell a proper part of the word, the end of the input
makes `word()` fail with `UnexpectedEnd`. -/
theorem wordLoop_short (word : List Nat) :
    ∀ (tpre pre : List Nat),
      List.Forall₂ (fun c x => c = x ∨ c = (x + 256 - 32) % 256) pre tpre →
      ∀ (b : buffer) (idx x : Nat) (trest : List Nat),
        word.drop idx = tpre ++ x :: trest → b.InPlace → b.rest = pre →
        buffer.wordLoop word (b.length - b.index) b idx
          = some (b.advance pre.length, some (errorEOF (b.index + pre.length))) := by
  intro tpre pre hm
  induction hm with
  | nil =>
    intro b idx x trest hword hb hr
    obtain ⟨-, g2, -⟩ := drop_cons_inv (by simpa using hword)
    have hlt := rest_nil hb hr
    have hne : (idx != word.length) = true := by simpa using Nat.ne_of_lt g2
    cases hn : b.length - b.index with
    | zero => simp [buffer.wordLoop, buffer.wordEnd, hne]
    | succ m => simp [buffer.wordLoop, buffer.wordEnd, hne, hlt]
  | @cons c0 x0 pre tpre hcx0 _ ih =>
    intro b idx x trest hword hb hr
    obtain ⟨h1, h2, h3, h4, h5⟩ := rest_cons hb hr
    obtain ⟨g1, g2, g3⟩ := drop_cons_inv (by simpa using hword)
    have hcond : (c0 != x0 && c0 != (x0 + 256 - 32) % 256) = false := by
      rcases hcx0 with h | h
      · simp [h]
      · rw [Bool.and_eq_false_iff]; right; simp [h]
    have hlen : idx + 1 < word.length := by
      have hd : word.drop (idx + 1) = (tpre ++ x :: trest).head (by simp)
          :: (tpre ++ x :: trest).tail := by rw [g3]; simp
      exact (drop_cons_inv hd).2.1
    have hnot : ¬ (idx + 1 ≥ word.length) := by omega
    rw [h5, buffer.wordLoop]
    simp only [h1, h2, g1, hcond, if_true, Bool.false_eq_true, if_false, advance_one_eq]
    rw [if_neg hnot]
    have hnext := ih (b.advance 1) (idx + 1) x trest g3 h4 h3
    simp only [advance_length, advance_index] at hnext
    rw [hnext, advance_advance]
    have e1 : 1 + pre.length = (c0 :: pre).length := by simp [Nat.add_comm]
    have e2 : b.index + 1 + pre.length = b.index + (c0 :: pre).length := by
      simp only [List.length_cons]; omega
    rw [e1, e2]

/-- A part of a word that is spelled in either case, and the letter after
it. -/
theorem take_drop_letter {word : List Nat} {k x : Nat} (h : word[k]? = some x) :
    word.drop 0 = word.take k ++ x :: word.drop (k + 1) := by
  have hk : k < word.length := by
    rcases Nat.lt_or_ge k word.length with h1 | h1
    · exact h1
    · rw [List.getElem?_eq_none h1] at h; cases h
  have hx : word[k] = x := by
    rw [List.getElem?_eq_getElem hk] at h; exact Option.some.inj h
  rw [List.drop_zero, ← hx, ← List.drop_eq_getElem_cons hk, List.take_append_drop]

/-! ## The values of the bit mask of `numeric()` -/

/-- From one of the masks 0, 1, 4, 5, 8, 9, 12, 13, a byte that `numeric()`
steps over leads to one of these masks again. -/
theorem numStep_mask {find c f : Nat} (h : numStep find c = some f)
    (hf : find = 0 ∨ find = 1 ∨ find = 4 ∨ find = 5 ∨ find = 8 ∨ find = 9 ∨ find = 12
      ∨ find = 13) :
    f = 0 ∨ f = 1 ∨ f = 4 ∨ f = 5 ∨ f = 8 ∨ f = 9 ∨ f = 12 ∨ f = 13 := by
  unfold numStep at h
  split at h
  · simp only [Option.some.injEq] at h
    subst h
    rcases hf with rfl | rfl | rfl | rfl | rfl | rfl | rfl | rfl <;> decide
  · split at h
    · split at h
      · simp only [Option.some.injEq] at h
        subst h
        rcases hf with rfl | rfl | rfl | rfl | rfl | rfl | rfl | rfl <;> decide
      · simp at h
    · split at h
      · split at h
        · simp only [Option.some.injEq] at h
          subst h
          rcases hf with rfl | rfl | rfl | rfl | rfl | rfl | rfl | rfl <;> decide
        · simp at h
      · split at h
        · split at h
          · simp only [Option.some.injEq] at h
            subst h
            decide
          · simp at h
        · simp at h

theorem numRun_mask :
    ∀ (tok : List Nat) (find f : Nat), numRun find tok = some f →
      (find = 0 ∨ find = 1 ∨ find = 4 ∨ find = 5 ∨ find = 8 ∨ find = 9 ∨ find = 12
        ∨ find = 13) →
      f = 0 ∨ f = 1 ∨ f = 4 ∨ f = 5 ∨ f = 8 ∨ f = 9 ∨ f = 12 ∨ f = 13 := by
  intro tok
  induction tok with
  | nil =>
    intro find f h hf
    simp only [numRun, Option.some.injEq] at h
    subst h
    exact hf
  | cons c cs ih =>
    intro find f h hf
    rw [numRun] at h
    cases hs : numStep find c with
    | none => rw [hs] at h; simp at h
    | some f1 =>
      rw [hs] at h
      exact ih f1 f h (numStep_mask hs hf)

/-- The bit 2 of the mask is never set, so `numeric()` steps over every `.` and
the mask is 0 after it. -/
theorem numStep_dot_of_mask {f : Nat}
    (hf : f = 0 ∨ f = 1 ∨ f = 4 ∨ f = 5 ∨ f = 8 ∨ f = 9 ∨ f = 12 ∨ f = 13) :
    f &&& 2 = 0 ∧ numStep f 46 = some 0 := by
  rcases hf with rfl | rfl | rfl | rfl | rfl | rfl | rfl | rfl <;> decide

theorem numRun_snoc {tok : List Nat} {c find f : Nat} (h : numRun find (tok ++ [c]) = some f) :
    ∃ f1, numRun find tok = some f1 ∧ numStep f1 c = some f := by
  rw [numRun_append] at h
  cases h1 : numRun find tok with
  | none => rw [h1] at h; simp at h
  | some f1 =>
    rw [h1] at h
    simp only [Option.some_bind, numRun] at h
    cases hs : numStep f1 c with
    | none => rw [hs] at h; simp at h
    | some f2 =>
      rw [hs] at h
      simp only [Option.some.injEq] at h
      exact ⟨f1, rfl, by rw [← h, hs]⟩

/-- The digit bit is set exactly after a digit. -/
theorem numStep_digit_bit {find c f : Nat} (h : numStep find c = some f)
    (hf : find = 0 ∨ find = 1 ∨ find = 4 ∨ find = 5 ∨ find = 8 ∨ find = 9 ∨ find = 12
      ∨ find = 13) :
    (f &&& 4 ≠ 0 ↔ (48 ≤ c ∧ c ≤ 57)) := by
  unfold numStep at h
  split at h
  · rename_i hd
    simp only [Option.some.injEq] at h
    subst h
    have hd2 : 48 ≤ c ∧ c ≤ 57 := by simpa using hd
    simp only [hd2, and_self, iff_true]
    rcases hf with rfl | rfl | rfl | rfl | rfl | rfl | rfl | rfl <;> decide
  · rename_i hd
    have hd2 : ¬ (48 ≤ c ∧ c ≤ 57) := by simpa using hd
    simp only [hd2, iff_false, not_not]
    split at h
    · split at h
      · simp only [Option.some.injEq] at h
        subst h
        rcases hf with rfl | rfl | rfl | rfl | rfl | rfl | rfl | rfl <;> decide
      · simp at h
    · split at h
      · split at h
        · rename_i h08
          simp only [Option.some.injEq] at h
          subst h
          have : find = 0 ∨ find = 8 := by simpa using h08
          rcases this with rfl | rfl <;> decide
        · simp at h
      · split at h
        · split at h
          · simp only [Option.some.injEq] at h
            subst h
            decide
          · simp at h
        · simp at h

/-- After a run without a digit the digit bit is not set. -/
theorem numRun_no_digit :
    ∀ (tok : List Nat) (find f : Nat), numRun find tok = some f →
      (find = 0 ∨ find = 1 ∨ find = 8 ∨ find = 9) → (∀ x ∈ tok, ¬ (48 ≤ x ∧ x ≤ 57)) →
      f = 0 ∨ f = 1 ∨ f = 8 ∨ f = 9 := by
  intro tok
  induction tok with
  | nil =>
    intro find f h hf _
    simp only [numRun, Option.some.injEq] at h
    subst h
    exact hf
  | cons c cs ih =>
    intro find f h hf hnd
    rw [numRun] at h
    cases hs : numStep find c with
    | none => rw [hs] at h; simp at h
    | some f1 =>
      rw [hs] at h
      have hall : find = 0 ∨ find = 1 ∨ find = 4 ∨ find = 5 ∨ find = 8 ∨ find = 9
          ∨ find = 12 ∨ find = 13 := by omega
      have hm := numStep_mask hs hall
      have hbit := (numStep_digit_bit hs hall).not.mpr (hnd c (by simp))
      have hf1 : f1 = 0 ∨ f1 = 1 ∨ f1 = 8 ∨ f1 = 9 := by
        rcases hm with rfl | rfl | rfl | rfl | rfl | rfl | rfl | rfl <;>
          first | omega | exact absurd (by decide) hbit
      exact ih f1 f h hf1 (fun x hx => hnd x (by simp [hx]))

/-- At the end of the input, after a run that `numeric()` steps over, the call
gives `io.EOF` when the digit bit is set and `UnexpectedEnd` otherwise. -/
theorem numeric_at_end {b : buffer} {tok : List Nat} {f : Nat} (hb : b.InPlace)
    (hr : b.rest = tok) (hrun : numRun 0 tok = some f) :
    b.numeric = some (b.advance tok.length,
      if f &&& 4 ≠ 0 then some Error.EOF else some (errorEOF (b.index + tok.length))) := by
  have hr2 : (b.advance tok.length).rest = [] := by
    rw [rest_advance, hr]; simp
  unfold buffer.numeric
  rw [numericLoop_run tok b [] 0 f hb (by simpa using hr) hrun,
    numericLoop_end (inPlace_advance hb _) hr2, buffer.numericEnd]
  by_cases h4 : f &&& 4 = 0
  · simp [h4]
  · simp [h4]

/-! ## `skip()` by positions -/

/-- The loop of `skip(s)` stops on the first unescaped `s` at or after the
cursor. -/
theorem skipLoop_found (s : Nat) :
    ∀ (k : Nat) (b : buffer), b.InPlace → Unescaped s b.data (b.index + k) →
      (∀ j : Nat, j < k → ¬ Unescaped s b.data (b.index + j)) →
      buffer.skipLoop s (b.length - b.index) b = some (b.advance k, Bool.true) := by
  intro k
  induction k with
  | zero =>
    intro b hb hq _
    have hget : b.data[b.index]? = some s := hq.1
    have hlt : b.index < b.data.length := by
      rcases Nat.lt_or_ge b.index b.data.length with h | h
      · exact h
      · rw [List.getElem?_eq_none h] at hget; cases hget
    have hlt2 : b.index < b.length := by rw [hb]; exact hlt
    have h5 : b.length - b.index = (b.length - (b.index + 1)) + 1 := by omega
    have hpar : precedingBackslashes (b.data.take b.index) % 2 = 0 := hq.2
    rw [h5, buffer.skipLoop]
    simp [hlt2, hget, backslash_parity (Nat.le_of_lt hlt), hpar]
  | succ k ih =>
    intro b hb hq hmin
    have hlt : b.index < b.data.length := by
      have hget := hq.1
      rcases Nat.lt_or_ge (b.index + (k + 1)) b.data.length with h | h
      · omega
      · rw [List.getElem?_eq_none h] at hget; cases hget
    have hlt2 : b.index < b.length := by rw [hb]; exact hlt
    have h5 : b.length - b.index = (b.length - (b.index + 1)) + 1 := by omega
    have hget : b.data[b.index]? = some b.data[b.index] := List.getElem?_eq_getElem hlt
    have hnext := ih (b.advance 1) (inPlace_advance hb 1)
      (by simpa [Nat.add_assoc, Nat.add_comm 1 k] using hq)
      (by
        intro j hj
        have := hmin (j + 1) (by omega)
        simpa [Nat.add_assoc, Nat.add_comm 1 j] using this)
    simp only [advance_length, advance_index] at hnext
    rw [advance_advance, Nat.add_comm 1 k] at hnext
    have h0 : ¬ Unescaped s b.data b.index := by simpa using hmin 0 (by omega)
    rw [h5, buffer.skipLoop]
    simp only [hlt2, hget, if_true, advance_one_eq]
    by_cases hc : b.data[b.index] = s
    · have hpar : precedingBackslashes (b.data.take b.index) % 2 = 1 := by
        have : ¬ precedingBackslashes (b.data.take b.index) % 2 = 0 := by
          intro h; exact h0 ⟨by rw [hget, hc], h⟩
        omega
      simp only [hc, beq_self_eq_true, if_true, backslash_parity (Nat.le_of_lt hlt), hpar,
        decide_True, Bool.not_true, Bool.false_eq_true, if_false]
      exact hnext
    · have hc2 : (b.data[b.index] == s) = false := by simpa using hc
      simp only [hc2, Bool.false_eq_true, if_false]
      exact hnext

/-- Where no unescaped `s` is left, the loop of `skip(s)` runs to the end of
the input and reports that it found none. -/
theorem skipLoop_none (s : Nat) :
    ∀ (n : Nat) (b : buffer), b.InPlace → n = b.length - b.index →
      (∀ j : Nat, ¬ Unescaped s b.data (b.index + j)) →
      buffer.skipLoop s n b = some (b.advance n, Bool.false) := by
  intro n
  induction n with
  | zero => intro b _ _ _; simp [buffer.skipLoop]
  | succ m ih =>
    intro b hb hn hno
    have hlt2 : b.index < b.length := by omega
    have hlt : b.index < b.data.length := by rw [← hb]; exact hlt2
    have hget : b.data[b.index]? = some b.data[b.index] := List.getElem?_eq_getElem hlt
    have hnext := ih (b.advance 1) (inPlace_advance hb 1)
      (by simp only [advance_length, advance_index]; omega)
      (by
        intro j
        have := hno (j + 1)
        simpa [Nat.add_assoc, Nat.add_comm 1 j] using this)
    rw [advance_advance, Nat.add_comm 1 m] at hnext
    have h0 : ¬ Unescaped s b.data b.index := by simpa using hno 0
    rw [buffer.skipLoop]
    simp only [hlt2, hget, if_true, advance_one_eq]
    by_cases hc : b.data[b.index] = s
    · have hpar : precedingBackslashes (b.data.take b.index) % 2 = 1 := by
        have : ¬ precedingBackslashes (b.data.take b.index) % 2 = 0 := by
          intro h; exact h0 ⟨by rw [hget, hc], h⟩
        omega
      simp only [hc, beq_self_eq_true, if_true, backslash_parity (Nat.le_of_lt hlt), hpar,
        decide_True, Bool.not_true, Bool.false_eq_true, if_false]
      exact hnext
    · have hc2 : (b.data[b.index] == s) = false := by simpa using hc
      simp only [hc2, Bool.false_eq_true, if_false]
      exact hnext

theorem advance_eq_with (b : buffer) (k : Nat) :
    b.advance k = { b with index := b.index + k } := rfl

/-- The method `string()` stops on the first unescaped quote after the
cursor. -/
theorem string_found {b : buffer} (hb : b.InPlace) {q : Nat} (hq : b.index < q)
    (hun : Unescaped quotes b.data q)
    (hmin : ∀ j : Nat, b.index < j → j < q → ¬ Unescaped quotes b.data j) :
    b.string = some ({ b with index := q }, none) := by
  obtain ⟨k, rfl⟩ : ∃ k, q = b.index + 1 + k := ⟨q - (b.index + 1), by omega⟩
  have hlt : b.index + 1 + k < b.data.length := by
    have hget := hun.1
    rcases Nat.lt_or_ge (b.index + 1 + k) b.data.length with h | h
    · exact h
    · rw [List.getElem?_eq_none h] at hget; cases hget
  have hstep : b.index + 1 < b.length := by rw [hb]; omega
  have hskip := skipLoop_found quotes k (b.advance 1) (inPlace_advance hb 1) hun
    (fun j hj => hmin (b.index + 1 + j) (by omega) (by omega))
  unfold buffer.string
  rw [step_lt hstep]
  simp only [buffer.skip, hskip, Bool.not_true, Bool.false_eq_true, if_false, advance_advance]
  simp [buffer.advance, Nat.add_assoc]

/-- With no unescaped quote after the cursor, `string()` fails with
`UnexpectedEnd`. -/
theorem string_not_found {b : buffer} (hb : b.InPlace)
    (hno : ∀ q : Nat, b.index < q → ¬ Unescaped quotes b.data q) :
    ∃ i : Nat, b.string = some ({ b with index := i }, some (errorEOF i)) := by
  unfold buffer.string
  by_cases hstep : b.index + 1 < b.length
  · have hskip := skipLoop_none quotes _ (b.advance 1) (inPlace_advance hb 1) rfl
      (fun j => hno (b.index + 1 + j) (by omega))
    rw [step_lt hstep]
    simp only [buffer.skip, hskip, Bool.not_false, if_true]
    exact ⟨_, rfl⟩
  · rw [step_ge hstep]
    exact ⟨b.index, rfl⟩

/-- A run of bytes is whitespace throughout, or it is whitespace up to a first
byte that is none. -/
theorem whitespace_or_first (l : List Nat) :
    Whitespace l ∨ ∃ (ws : List Nat) (c : Nat) (r : List Nat), l = ws ++ c :: r ∧ Whitespace ws
      ∧ ¬ (c = 32 ∨ c = 10 ∨ c = 13 ∨ c = 9) := by
  induction l with
  | nil => exact Or.inl (by intro x hx; simp at hx)
  | cons x xs ih =>
    by_cases hx : x = 32 ∨ x = 10 ∨ x = 13 ∨ x = 9
    · rcases ih with h | ⟨ws, c, r, h1, h2, h3⟩
      · left
        intro y hy
        rcases List.mem_cons.mp hy with rfl | hy
        · exact hx
        · exact h y hy
      · right
        refine ⟨x :: ws, c, r, by simp [h1], ?_, h3⟩
        intro y hy
        rcases List.mem_cons.mp hy with rfl | hy
        · exact hx
        · exact h2 y hy
    · exact Or.inr ⟨[], x, xs, rfl, by intro y hy; simp at hy, hx⟩

theorem rest_length {b : buffer} (hb : b.InPlace) : b.rest.length = b.length - b.index := by
  unfold buffer.InPlace at hb
  simp [buffer.rest, hb]

/-! ## Where `numeric()` stops -/

theorem numStep_numberByte {find c f : Nat} (h : numStep find c = some f) : NumberByte c := by
  have h2 := numStep_lead h
  simp only [Bool.or_eq_true, Bool.and_eq_true, decide_eq_true_eq, beq_iff_eq] at h2
  unfold NumberByte
  omega

theorem numRun_numberByte :
    ∀ (tok : List Nat) (find f : Nat), numRun find tok = some f → ∀ x ∈ tok, NumberByte x := by
  intro tok
  induction tok with
  | nil => intro _ _ _ x hx; simp at hx
  | cons c cs ih =>
    intro find f h x hx
    rw [numRun] at h
    cases hs : numStep find c with
    | none => rw [hs] at h; simp at h
    | some f1 =>
      rw [hs] at h
      rcases List.mem_cons.mp hx with rfl | hx
      · exact numStep_numberByte hs
      · exact ih f1 f h x hx

/-- The loop of `numeric()` ends without error at a byte only if the byte is
outside the alphabet. -/
theorem numericLoop_stop_outside {b b1 : buffer} {c : Nat} {r : List Nat} {find : Nat}
    (hb : b.InPlace) (hr : b.rest = c :: r) (hs : numStep find c = none)
    (h : buffer.numericLoop (b.length - b.index) b find = some (b1, none)) :
    ¬ NumberByte c := by
  obtain ⟨h1, h2, -, -, h5⟩ := rest_cons hb hr
  rw [h5, buffer.numericLoop] at h
  simp only [h1, h2, if_true] at h
  intro hin
  unfold numStep at hs
  split at hs
  · simp at hs
  · rename_i hd
    rw [if_neg hd] at h
    split at hs
    · rename_i hdot
      rw [if_pos hdot] at h
      split at hs
      · simp at hs
      · rename_i h3
        rw [if_neg h3] at h
        simp at h
    · rename_i hdot
      rw [if_neg hdot] at h
      split at hs
      · rename_i hsg
        rw [if_pos hsg] at h
        split at hs
        · simp at hs
        · rename_i h3
          rw [if_neg h3] at h
          simp at h
      · rename_i hsg
        rw [if_neg hsg] at h
        split at hs
        · rename_i he
          rw [if_pos he] at h
          split at hs
          · simp at hs
          · rename_i h3
            rw [if_neg h3] at h
            simp at h
        · rename_i he
          simp only [Bool.and_eq_true, decide_eq_true_eq, beq_iff_eq, Bool.or_eq_true] at hd hdot hsg he
          unfold NumberByte at hin
          omega

/-- When `numeric()` ends with `io.EOF` the cursor is at the end of the input,
and when it ends with no error the cursor is on a byte outside the
alphabet. -/
theorem numericLoop_inv_end :
    ∀ (l : List Nat) (b b1 : buffer) (find : Nat) (err : Option Error), b.InPlace →
      b.rest = l → buffer.numericLoop (b.length - b.index) b find = some (b1, err) →
      (err = none ∨ err = some Error.EOF) →
      (err = some Error.EOF ∧ b1.rest = [])
        ∨ (err = none ∧ ∃ (c : Nat) (r : List Nat), b1.rest = c :: r ∧ ¬ NumberByte c) := by
  intro l
  induction l with
  | nil =>
    intro b b1 find err hb hr h herr
    rw [numericLoop_end hb hr, buffer.numericEnd] at h
    split at h
    · simp only [Option.some.injEq, Prod.mk.injEq] at h
      obtain ⟨rfl, rfl⟩ := h
      exact Or.inl ⟨rfl, hr⟩
    · simp only [Option.some.injEq, Prod.mk.injEq] at h
      obtain ⟨-, rfl⟩ := h
      rcases herr with h | h <;> simp [errorEOF] at h
  | cons c r ih =>
    intro b b1 find err hb hr h herr
    cases hs : numStep find c with
    | none =>
      obtain ⟨e, he, hcase⟩ := numericLoop_stop hb hr hs
      have h0 := h
      rw [he] at h
      simp only [Option.some.injEq, Prod.mk.injEq] at h
      obtain ⟨rfl, rfl⟩ := h
      rcases hcase with ⟨rfl, -⟩ | he2
      · exact Or.inr ⟨rfl, c, r, hr, numericLoop_stop_outside hb hr hs h0⟩
      · subst he2
        rcases herr with h | h <;> simp [errorSymbol] at h
    | some f1 =>
      obtain ⟨-, -, h3, h4, -⟩ := rest_cons hb hr
      rw [numericLoop_step hb hr hs] at h
      exact ih (b.advance 1) b1 f1 err h4 h3 h herr

theorem getElem?_of_rest {b : buffer} {tok rest : List Nat} (hr : b.rest = tok ++ rest)
    (j : Nat) (hj : j < tok.length) : b.data[b.index + j]? = tok[j]? := by
  have h1 : (b.data.drop b.index)[j]? = b.data[b.index + j]? := List.getElem?_drop _ _ _
  have h2 : (b.data.drop b.index)[j]? = (tok ++ rest)[j]? := by
    show b.rest[j]? = _
    rw [hr]
  rw [← h1, h2, List.getElem?_append_left hj]

theorem getElem?_rest_head {b : buffer} {c : Nat} {r : List Nat} (hr : b.rest = c :: r) :
    b.data[b.index]? = some c := (drop_cons_inv hr).1

/-- What `numeric()` has read when it succeeds: a non-empty run of bytes of the
alphabet that ends in a digit, with the cursor just after it, at the end of
the input or on a byte outside the alphabet. -/
theorem numeric_success {b b1 : buffer} {err : Option Error} (hb : b.InPlace)
    (h : b.numeric = some (b1, err)) (herr : err = none ∨ err = some Error.EOF) :
    ∃ (pre : List Nat) (d : Nat), b.rest = (pre ++ [d]) ++ b1.rest
      ∧ b1 = b.advance (pre ++ [d]).length
      ∧ (∀ x ∈ pre ++ [d], NumberByte x) ∧ (48 ≤ d ∧ d ≤ 57)
      ∧ ((err = some Error.EOF ∧ b1.rest = [])
        ∨ (err = none ∧ ∃ (c : Nat) (r : List Nat), b1.rest = c :: r ∧ ¬ NumberByte c)) := by
  obtain ⟨tok, f, hr, hb1, hrun, hf⟩ := numericLoop_inv _ b b1 0 err hb rfl h herr
  have hend := numericLoop_inv_end _ b b1 0 err hb rfl h herr
  have hne : tok ≠ [] := by
    rintro rfl
    simp only [numRun, Option.some.injEq] at hrun
    subst hrun
    exact hf rfl
  obtain ⟨pre, d, rfl⟩ : ∃ pre d, tok = pre ++ [d] :=
    ⟨tok.dropLast, tok.getLast hne, (List.dropLast_append_getLast hne).symm⟩
  obtain ⟨f1, h1, h2⟩ := numRun_snoc hrun
  have hd := (numStep_digit_bit h2 (numRun_mask pre 0 f1 h1 (Or.inl rfl))).mp hf
  exact ⟨pre, d, hr, hb1, numRun_numberByte _ 0 f hrun, hd, hend⟩

/-- When `string()` gives no error, the cursor is on an unescaped quote after
its old position, the first one. -/
theorem string_success_pos {b b1 : buffer} (hb : b.InPlace) (h : b.string = some (b1, none)) :
    b1 = { b with index := b1.index } ∧ b.index < b1.index
      ∧ Unescaped quotes b.data b1.index
      ∧ ∀ j : Nat, b.index < j → j < b1.index → ¬ Unescaped quotes b.data j := by
  by_cases hex : ∃ q : Nat, b.index < q ∧ Unescaped quotes b.data q
  · have hspec := Nat.find_spec hex
    have hfound := string_found hb hspec.1 hspec.2
      (fun j hj hjq hun => Nat.find_min hex hjq ⟨hj, hun⟩)
    rw [hfound] at h
    simp only [Option.some.injEq, Prod.mk.injEq, and_true] at h
    subst h
    exact ⟨rfl, hspec.1, hspec.2, fun j hj hjq hun => Nat.find_min hex hjq ⟨hj, hun⟩⟩
  · obtain ⟨i, hi⟩ := string_not_found hb (fun q hq hun => hex ⟨q, hq, hun⟩)
    rw [hi] at h
    simp at h

/-! ## The buffer invariant

Under the invariant no scanner reads outside the data (in the model: no
scanner gives `none`), and every scanner leaves a buffer with the same data
that satisfies the invariant again. -/

theorem keeps_refl {b : buffer} (hv : b.Valid) : b.Keeps b := ⟨rfl, rfl, hv⟩

theorem keeps_trans {b b1 b2 : buffer} (h1 : b.Keeps b1) (h2 : b1.Keeps b2) : b.Keeps b2 :=
  ⟨h2.1.trans h1.1, h2.2.1.trans h1.2.1, h2.2.2⟩

theorem valid_advance_one {b : buffer} (hv : b.Valid) (hlt : b.index < b.length) :
    (b.advance 1).Valid := ⟨hv.1, by simp only [advance_index, advance_length]; omega⟩

theorem keeps_advance_one {b : buffer} (hv : b.Valid) (hlt : b.index < b.length) :
    b.Keeps (b.advance 1) := ⟨rfl, rfl, valid_advance_one hv hlt⟩

theorem valid_read {b : buffer} (hv : b.Valid) (hlt : b.index < b.length) :
    ∃ c : Nat, b.data[b.index]? = some c := by
  have h : b.index < b.data.length := by rw [← hv.1]; exact hlt
  exact ⟨b.data[b.index], List.getElem?_eq_getElem h⟩

theorem step_safe {b : buffer} (hv : b.Valid) : b.Keeps (b.step).1 := by
  unfold buffer.step
  split
  · rename_i h
    exact keeps_advance_one hv (by omega)
  · exact keeps_refl hv

theorem backslash_safe {b : buffer} (hv : b.Valid) : ∃ r : Bool, b.backslash = some r := by
  have hle : b.index ≤ b.data.length := by rw [← hv.1]; exact hv.2
  exact ⟨_, backslash_parity hle⟩

theorem firstLoop_safe :
    ∀ (n : Nat) (b : buffer), b.Valid →
      ∃ (b1 : buffer) (c : Nat) (e : Option Error),
        buffer.firstLoop n b = some (b1, c, e) ∧ b.Keeps b1 := by
  intro n
  induction n with
  | zero => intro b hv; exact ⟨b, 0, _, rfl, keeps_refl hv⟩
  | succ m ih =>
    intro b hv
    rw [buffer.firstLoop]
    by_cases hlt : b.index < b.length
    · obtain ⟨c, hc⟩ := valid_read hv hlt
      simp only [hlt, hc, if_true, advance_one_eq]
      split
      · exact ⟨b, c, none, rfl, keeps_refl hv⟩
      · obtain ⟨b1, c1, e, h1, h2⟩ := ih (b.advance 1) (valid_advance_one hv hlt)
        exact ⟨b1, c1, e, h1, keeps_trans (keeps_advance_one hv hlt) h2⟩
    · simp only [hlt, if_false]
      exact ⟨b, 0, _, rfl, keeps_refl hv⟩

theorem skipLoop_safe (s : Nat) :
    ∀ (n : Nat) (b : buffer), b.Valid →
      ∃ (b1 : buffer) (found : Bool), buffer.skipLoop s n b = some (b1, found) ∧ b.Keeps b1 := by
  intro n
  induction n with
  | zero => intro b hv; exact ⟨b, _, rfl, keeps_refl hv⟩
  | succ m ih =>
    intro b hv
    rw [buffer.skipLoop]
    by_cases hlt : b.index < b.length
    · obtain ⟨c, hc⟩ := valid_read hv hlt
      obtain ⟨r, hr⟩ := backslash_safe hv
      obtain ⟨b1, f1, h1, h2⟩ := ih (b.advance 1) (valid_advance_one hv hlt)
      have hnext : ∃ (b1 : buffer) (found : Bool),
          buffer.skipLoop s m (b.advance 1) = some (b1, found) ∧ b.Keeps b1 :=
        ⟨b1, f1, h1, keeps_trans (keeps_advance_one hv hlt) h2⟩
      simp only [hlt, hc, hr, if_true, advance_one_eq]
      split
      · split
        · exact ⟨b, _, rfl, keeps_refl hv⟩
        · exact hnext
      · exact hnext
    · simp only [hlt, if_false]
      exact ⟨b, _, rfl, keeps_refl hv⟩

theorem scanLoop_safe (s : Nat) (skip : Bool) :
    ∀ (n : Nat) (b : buffer) (from1 to1 : Int) (find : Bool), b.Valid →
      ∃ (b1 : buffer) (f t : Int) (e : Option Error),
        buffer.scanLoop s skip n b from1 to1 find = some (b1, f, t, e) ∧ b.Keeps b1 := by
  intro n
  induction n with
  | zero => intro b from1 to1 find hv; exact ⟨b, _, _, _, rfl, keeps_refl hv⟩
  | succ m ih =>
    intro b from1 to1 find hv
    rw [buffer.scanLoop]
    by_cases hlt : b.index < b.length
    · obtain ⟨c, hc⟩ := valid_read hv hlt
      obtain ⟨r, hr⟩ := backslash_safe hv
      have hnext : ∀ (x y : Int) (z : Bool), ∃ (b1 : buffer) (f t : Int) (e : Option Error),
          buffer.scanLoop s skip m (b.advance 1) x y z = some (b1, f, t, e) ∧ b.Keeps b1 := by
        intro x y z
        obtain ⟨b1, f, t, e, h1, h2⟩ := ih (b.advance 1) x y z (valid_advance_one hv hlt)
        exact ⟨b1, f, t, e, h1, keeps_trans (keeps_advance_one hv hlt) h2⟩
      have hcont : ∃ (b1 : buffer) (f t : Int) (e : Option Error),
          (if (skip && (c == skipS || c == skipR || c == skipN || c == skipT)) = true then
            if (!find) = true then
              buffer.scanLoop s skip m (b.advance 1) (from1 + 1) (to1 + 1) find
            else buffer.scanLoop s skip m (b.advance 1) from1 to1 find
          else buffer.scanLoop s skip m (b.advance 1) from1 (to1 + 1) Bool.true)
            = some (b1, f, t, e) ∧ b.Keeps b1 := by
        split
        · split
          · exact hnext _ _ _
          · exact hnext _ _ _
        · exact hnext _ _ _
      simp only [hlt, hc, hr, if_true, advance_one_eq]
      by_cases hcs : (c == s) = true
      · simp only [hcs, if_true, Option.map_some']
        cases r with
        | true =>
          simp only [Bool.not_true]
          exact hcont
        | false =>
          simp only [Bool.not_false]
          exact ⟨_, _, _, _, rfl, step_safe hv⟩
      · have hcs2 : (c == s) = false := by simpa using hcs
        simp only [hcs2, Bool.false_eq_true, if_false]
        exact hcont
    · simp only [hlt, if_false]
      exact ⟨b, _, _, _, rfl, keeps_refl hv⟩

theorem numericLoop_safe :
    ∀ (n : Nat) (b : buffer) (find : Nat), b.Valid →
      ∃ (b1 : buffer) (e : Option Error),
        buffer.numericLoop n b find = some (b1, e) ∧ b.Keeps b1 := by
  intro n
  induction n with
  | zero =>
    intro b find hv
    refine ⟨(b.numericEnd find).1, (b.numericEnd find).2, rfl, ?_⟩
    unfold buffer.numericEnd
    split <;> exact keeps_refl hv
  | succ m ih =>
    intro b find hv
    rw [buffer.numericLoop]
    by_cases hlt : b.index < b.length
    · obtain ⟨c, hc⟩ := valid_read hv hlt
      have hnext : ∀ f : Nat, ∃ (b1 : buffer) (e : Option Error),
          buffer.numericLoop m (b.advance 1) f = some (b1, e) ∧ b.Keeps b1 := by
        intro f
        obtain ⟨b1, e, h1, h2⟩ := ih (b.advance 1) f (valid_advance_one hv hlt)
        exact ⟨b1, e, h1, keeps_trans (keeps_advance_one hv hlt) h2⟩
      simp only [hlt, hc, if_true, advance_one_eq]
      repeat' split
      all_goals first
        | exact hnext _
        | exact ⟨b, _, rfl, keeps_refl hv⟩
    · simp only [hlt, if_false]
      refine ⟨(b.numericEnd find).1, (b.numericEnd find).2, rfl, ?_⟩
      unfold buffer.numericEnd
      split <;> exact keeps_refl hv

theorem wordEnd_safe {b : buffer} (hv : b.Valid) (word : List Nat) (idx : Nat) :
    b.Keeps (b.wordEnd word idx).1 := by
  unfold buffer.wordEnd
  split <;> exact keeps_refl hv

theorem wordLoop_safe (word : List Nat) :
    ∀ (n : Nat) (b : buffer) (idx : Nat), b.Valid → idx < word.length →
      ∃ (b1 : buffer) (e : Option Error),
        buffer.wordLoop word n b idx = some (b1, e) ∧ b.Keeps b1 := by
  intro n
  induction n with
  | zero =>
    intro b idx hv _
    exact ⟨(b.wordEnd word idx).1, (b.wordEnd word idx).2, rfl, wordEnd_safe hv word idx⟩
  | succ m ih =>
    intro b idx hv hidx
    rw [buffer.wordLoop]
    by_cases hlt : b.index < b.length
    · obtain ⟨c, hc⟩ := valid_read hv hlt
      have hw : word[idx]? = some word[idx] := List.getElem?_eq_getElem hidx
      simp only [hlt, hc, hw, if_true, advance_one_eq]
      split
      · exact ⟨b, _, rfl, keeps_refl hv⟩
      · split
        · exact ⟨(b.wordEnd word (idx + 1)).1, (b.wordEnd word (idx + 1)).2, rfl,
            wordEnd_safe hv word (idx + 1)⟩
        · rename_i hge
          obtain ⟨b1, e, h1, h2⟩ := ih (b.advance 1) (idx + 1) (valid_advance_one hv hlt)
            (by omega)
          exact ⟨b1, e, h1, keeps_trans (keeps_advance_one hv hlt) h2⟩
    · simp only [hlt, if_false]
      exact ⟨(b.wordEnd word idx).1, (b.wordEnd word idx).2, rfl, wordEnd_safe hv word idx⟩

theorem first_safe {b : buffer} (hv : b.Valid) :
    ∃ (b1 : buffer) (c : Nat) (e : Option Error), b.first = some (b1, c, e) ∧ b.Keeps b1 :=
  firstLoop_safe _ b hv

theorem next_safe {b : buffer} (hv : b.Valid) :
    ∃ (b1 : buffer) (c : Nat) (e : Option Error), b.next = some (b1, c, e) ∧ b.Keeps b1 := by
  unfold buffer.next
  have hs := step_safe hv
  cases hstep : b.step with
  | mk b1 e =>
    rw [hstep] at hs
    cases e with
    | some err => exact ⟨b1, 0, some err, rfl, hs⟩
    | none =>
      obtain ⟨b2, c, e2, h1, h2⟩ := first_safe hs.2.2
      exact ⟨b2, c, e2, h1, keeps_trans hs h2⟩

theorem skip_safe {b : buffer} (hv : b.Valid) (s : Nat) :
    ∃ (b1 : buffer) (found : Bool), b.skip s = some (b1, found) ∧ b.Keeps b1 :=
  skipLoop_safe s _ b hv

theorem scan_safe {b : buffer} (hv : b.Valid) (s : Nat) (skip : Bool) :
    ∃ (b1 : buffer) (f t : Int) (e : Option Error),
      b.scan s skip = some (b1, f, t, e) ∧ b.Keeps b1 :=
  scanLoop_safe s skip _ b _ _ _ hv

theorem numeric_safe {b : buffer} (hv : b.Valid) :
    ∃ (b1 : buffer) (e : Option Error), b.numeric = some (b1, e) ∧ b.Keeps b1 :=
  numericLoop_safe _ b 0 hv

theorem string_safe {b : buffer} (hv : b.Valid) :
    ∃ (b1 : buffer) (e : Option Error), b.string = some (b1, e) ∧ b.Keeps b1 := by
  unfold buffer.string
  have hs := step_safe hv
  cases hstep : b.step with
  | mk b1 e =>
    rw [hstep] at hs
    cases e with
    | some err => exact ⟨b1, _, rfl, hs⟩
    | none =>
      obtain ⟨b2, found, h1, h2⟩ := skip_safe hs.2.2 quotes
      simp only [h1]
      split
      · exact ⟨b2, _, rfl, keeps_trans hs h2⟩
      · exact ⟨b2, _, rfl, keeps_trans hs h2⟩

theorem word_safe {b : buffer} (hv : b.Valid) {word : List Nat} (hne : word ≠ []) :
    ∃ (b1 : buffer) (e : Option Error), b.word word = some (b1, e) ∧ b.Keeps b1 :=
  wordLoop_safe word _ b 0 hv (List.length_pos.mpr hne)

/-! # The claims -/

/-- C1: the claim says that `Unmarshal` succeeds on every well-formed array or
object. In the code the `[` and `{` cases of the main loop are empty: for
every input whose first significant byte is `[` or `{`, and for every number
of iterations, the main loop is still running, so `Unmarshal` never returns. -/
theorem C1_container_input_never_returns (lead rest : List Nat) (c : Nat)
    (hlead : Whitespace lead) (hc : c = bracketL ∨ c = bracesL) (fuel : Nat) :
    Unmarshal fuel (lead ++ c :: rest) false = Outcome.running :=
  base_open_running [] none c rest hc fuel (newBuffer (lead ++ c :: rest) false) none lead
    (newBuffer_inPlace _) (newBuffer_rest _) hlead

/-- Witness of C1 at the input `[]`. -/
theorem C1_container_input_never_returns_witness :
    Whitespace [] ∧ ((91 : Nat) = bracketL ∨ (91 : Nat) = bracesL)
      ∧ Unmarshal 1000 (ascii "[]") false = Outcome.running :=
  ⟨by intro x hx; simp at hx, Or.inl rfl,
    C1_container_input_never_returns [] [93] 91 (by intro x hx; simp at hx) (Or.inl rfl) 1000⟩

/-- C2: the claim says that a scalar followed by further bytes is rejected. On
`null1` and on `1null` the code returns no error and the node of the second
scalar, whose parent is the node of the first. -/
theorem C2_second_scalar_accepted (fuel : Nat) :
    Unmarshal (fuel + 2) (ascii "null1") false
        = Outcome.returned
            (some (Node.mk (some (Node.mk none (ascii "null1") (0, 4) NodeType.Null [] none))
              (ascii "null1") (4, 5) NodeType.Numeric [] none)) none
      ∧ Unmarshal (fuel + 2) (ascii "1null") false
        = Outcome.returned
            (some (Node.mk (some (Node.mk none (ascii "1null") (0, 1) NodeType.Numeric [] none))
              (ascii "1null") (1, 5) NodeType.Null [] none)) none :=
  ⟨rfl, rfl⟩

/-- C3: for each of the words `null`, `true`, `false` written with every letter
in lower or upper case between runs of whitespace, the in-place `Unmarshal`
returns, with no error, a root of kind Null (for `null`) or Bool (for `true`,
`false`) whose borders are the position of the first letter and the position
just after the last letter, and whose raw source text is the word as
written. -/
theorem C3_literal_any_case (lead w trail word : List Nat) (kind : NodeType)
    (hlead : Whitespace lead) (htrail : Whitespace trail) (hw : SpelledAnyCase w word)
    (hword : (word = _null ∧ kind = NodeType.Null) ∨ (word = _true ∧ kind = NodeType.Bool)
      ∨ (word = _false ∧ kind = NodeType.Bool)) (fuel : Nat) :
    ∃ root : Node,
      Unmarshal (fuel + 2) (lead ++ w ++ trail) false = Outcome.returned (some root) none
        ∧ root.Type = kind
        ∧ root.borders = (lead.length, lead.length + w.length)
        ∧ root.Source = w := by
  refine ⟨Node.mk none (lead ++ w ++ trail) (lead.length, lead.length + w.length) kind [] none,
    ?_, rfl, rfl, source_of_middle lead w trail none kind [] none⟩
  have h := base_literal [] none fuel (newBuffer (lead ++ w ++ trail) false) none lead w trail
    word kind (newBuffer_inPlace _) (newBuffer_rest _) hlead htrail hw hword
  simpa [Unmarshal, newBuffer] using h

/-- Witness of C3 at the input `  NuLl\r\n `. -/
theorem C3_literal_any_case_witness :
    ∃ root : Node,
      Unmarshal 2 (ascii "  NuLl\r\n ") false = Outcome.returned (some root) none
        ∧ root.Type = NodeType.Null
        ∧ root.borders = (2, 6)
        ∧ root.Source = ascii "NuLl" :=
  C3_literal_any_case (ascii "  ") (ascii "NuLl") (ascii "\r\n ") _null NodeType.Null
    (by decide) (by decide)
    (by simp [SpelledAnyCase, ascii, _null]) (Or.inl ⟨rfl, rfl⟩) 0

/-- C4: for every number text `N` of the claim's grammar (optional sign, then
`digits+` or `digits* '.' digits+`, then optionally `e`/`E`, an optional sign,
`digits+` and optionally `'.' digits+`) between runs of whitespace, the
in-place `Unmarshal` returns, with no error, a root of kind Numeric whose
borders are the position of the first byte of `N` and the position just after
`N`, and whose raw source text is `N`. -/
theorem C4_number_text (lead N trail : List Nat) (hlead : Whitespace lead)
    (htrail : Whitespace trail) (hN : NumberText N) (fuel : Nat) :
    ∃ root : Node,
      Unmarshal (fuel + 2) (lead ++ N ++ trail) false = Outcome.returned (some root) none
        ∧ root.Type = NodeType.Numeric
        ∧ root.borders = (lead.length, lead.length + N.length)
        ∧ root.Source = N := by
  obtain ⟨f, hrun, hf⟩ := numRun_numberText hN
  refine ⟨Node.mk none (lead ++ N ++ trail) (lead.length, lead.length + N.length)
    NodeType.Numeric [] none, ?_, rfl, rfl, source_of_middle lead N trail none _ [] none⟩
  have h := base_numeric [] none fuel (newBuffer (lead ++ N ++ trail) false) none lead N trail f
    (newBuffer_inPlace _) (newBuffer_rest _) hlead htrail hrun hf
  simpa [Unmarshal, newBuffer] using h

/-- Witness of C4 at the input ` \r -1.123E-3.456 \t\n`. -/
theorem C4_number_text_witness :
    ∃ root : Node,
      Unmarshal 2 (ascii " \r -1.123E-3.456 \t\n") false = Outcome.returned (some root) none
        ∧ root.Type = NodeType.Numeric
        ∧ root.borders = (3, 16)
        ∧ root.Source = ascii "-1.123E-3.456" :=
  C4_number_text (ascii " \r ") (ascii "-1.123E-3.456") (ascii " \t\n") (by decide) (by decide)
    ⟨ascii "-", ascii "1.123", ascii "E-3.456", Or.inr (Or.inr rfl),
      ⟨ascii "1", ascii "123", by decide, by decide, Or.inr ⟨rfl, by decide⟩⟩,
      Or.inr ⟨69, ascii "-", ascii "3", ascii ".456", Or.inr rfl, Or.inr (Or.inr rfl), by decide,
        by decide, Or.inr ⟨ascii "456", rfl, by decide, by decide⟩, rfl⟩,
      rfl⟩ 0

/-- C5: for every input `"` body `"` between runs of whitespace, where every
`"` byte of the body is immediately preceded by an odd number of consecutive
backslashes and the body does not end in an odd run of backslashes, the
in-place `Unmarshal` returns, with no error, one root of kind String whose
borders are the position of the opening quote and the position just after the
closing quote, and whose raw source text is the whole quoted text. -/
theorem C5_escaped_string (lead body trail : List Nat) (hlead : Whitespace lead)
    (htrail : Whitespace trail) (hesc : EscapedBody body) (fuel : Nat) :
    ∃ root : Node,
      Unmarshal (fuel + 2) (lead ++ (34 :: body ++ [34]) ++ trail) false
          = Outcome.returned (some root) none
        ∧ root.Type = NodeType.String
        ∧ root.parent = none
        ∧ root.borders = (lead.length, lead.length + (body.length + 2))
        ∧ root.Source = 34 :: body ++ [34] := by
  refine ⟨Node.mk none (lead ++ (34 :: body ++ [34]) ++ trail)
    (lead.length, lead.length + (34 :: body ++ [34]).length) NodeType.String [] none,
    ?_, rfl, rfl, by simp [Node.borders], source_of_middle lead _ trail none _ [] none⟩
  have h := base_string [] none fuel (newBuffer (lead ++ (34 :: body ++ [34]) ++ trail) false)
    none lead body trail (newBuffer_inPlace _) (newBuffer_rest _) hlead htrail hesc
  simpa [Unmarshal, newBuffer] using h

/-- Witness of C5 at the input `"good \"cat\""` followed by a line break. -/
theorem C5_escaped_string_witness :
    ∃ root : Node,
      Unmarshal 2 (ascii "\"good \\\"cat\\\"\"\n") false = Outcome.returned (some root) none
        ∧ root.Type = NodeType.String
        ∧ root.parent = none
        ∧ root.borders = (0, 14)
        ∧ root.Source = ascii "\"good \\\"cat\\\"\"" :=
  C5_escaped_string [] (ascii "good \\\"cat\\\"") [10] (by decide) (by decide) (by decide) 0

/-- C6: for every input and either value of `clone`, whenever `Unmarshal`
returns a non-nil error, the root it returns is nil. -/
theorem C6_error_gives_nil_root (fuel : Nat) (body : List Nat) (clone : Bool)
    (root : Option Node) (e : Error)
    (h : Unmarshal fuel body clone = Outcome.returned root (some e)) : root = none :=
  base_error [] none fuel _ none root e h

/-- Witness of C6 at the input `"c`, where the string scanner fails after the
node was made. -/
theorem C6_error_gives_nil_root_witness :
    Unmarshal 1 (ascii "\"c") false = Outcome.returned none (some (errorEOF 2))
      ∧ (none : Option Node) = none :=
  ⟨rfl, C6_error_gives_nil_root 1 (ascii "\"c") false none (errorEOF 2) rfl⟩

/-- C7: the claim says that a call that returns no error has parsed exactly one
top-level value and returns a non-nil root. The code returns no error and a
nil root on the empty input and on whitespace, and on `1 2` it returns no
error and the node of the second value, whose parent is the node of the
first. -/
theorem C7_success_without_single_value (fuel : Nat) :
    Unmarshal (fuel + 1) [] false = Outcome.returned none none
      ∧ Unmarshal (fuel + 1) (ascii " \n") false = Outcome.returned none none
      ∧ Unmarshal (fuel + 2) (ascii "1 2") false
        = Outcome.returned
            (some (Node.mk (some (Node.mk none (ascii "1 2") (0, 1) NodeType.Numeric [] none))
              (ascii "1 2") (2, 3) NodeType.Numeric [] none)) none :=
  ⟨rfl, rfl, rfl⟩

/-- C8: the claim says that on every input whose first non-whitespace byte `c`,
at position `lead.length`, opens no value, `Unmarshal` returns a nil root and
the `UnexpectedSymbol` error of that byte and that position. The code does so
when it parses in place (`clone = false`). With `clone = true` the buffer of
`newBuffer` holds no data (the defect of C9), the first read of `first()` is out
of range, and on each of these inputs the call panics and returns neither a
root nor an error. -/
theorem C8_unexpected_first_byte (lead rest : List Nat) (c : Nat) (hlead : Whitespace lead)
    (hc : ¬ (c = 32 ∨ c = 10 ∨ c = 13 ∨ c = 9))
    (hb : c ≠ 123 ∧ c ≠ 91 ∧ c ≠ 34 ∧ ¬ (48 ≤ c ∧ c ≤ 57) ∧ c ≠ 46 ∧ c ≠ 43 ∧ c ≠ 45 ∧ c ≠ 101
      ∧ c ≠ 69 ∧ c ≠ 110 ∧ c ≠ 78 ∧ c ≠ 116 ∧ c ≠ 84 ∧ c ≠ 102 ∧ c ≠ 70) (fuel : Nat) :
    Unmarshal (fuel + 1) (lead ++ c :: rest) false
        = Outcome.returned none (some (errorSymbol c lead.length))
      ∧ Unmarshal (fuel + 1) (lead ++ c :: rest) true = Outcome.panicked := by
  constructor
  · unfold Unmarshal
    rw [Unmarshal.base, first_found (newBuffer_inPlace _) (newBuffer_rest _) hlead hc]
    obtain ⟨h1, h2, h3, h4, h5, h6, h7, h8, h9, h10, h11, h12, h13, h14, h15⟩ := hb
    have h4a : (decide (c ≥ 48) && decide (c ≤ 57)) = false := by
      simp only [Bool.and_eq_false_iff, decide_eq_false_iff_not]; omega
    simp [bracesL, bracketL, quotes, h1, h2, h3, h4a, h5, h6, h7, h8, h9, h10, h11, h12, h13,
      h14, h15, newBuffer]
  · cases lead <;>
      simp [Unmarshal, Unmarshal.base, newBuffer, buffer.first, buffer.firstLoop]

/-- Witness of C8 at the input `x1`, whose first significant byte is the `x` at
position 0: in place the call returns the error of that byte, with
`clone = true` it panics. -/
theorem C8_unexpected_first_byte_witness :
    Unmarshal 1 (ascii "x1") false = Outcome.returned none (some (errorSymbol 120 0))
      ∧ Unmarshal 1 (ascii "x1") true = Outcome.panicked :=
  C8_unexpected_first_byte [] (ascii "1") 120 (by intro x hx; simp at hx)
    (by decide) (by decide) 0

/-- C9: the claim says that `clone = true` parses a copy of `body`. In the code
`newBuffer(body, true)` leaves `data` empty while `length` is `len(body)`, so
on every non-empty body the first read of `Unmarshal(body, true)` is out of
range and the call panics; in place the body `1` parses to a Numeric root. -/
theorem C9_clone_has_no_data (c : Nat) (rest : List Nat) (fuel : Nat) :
    (newBuffer (c :: rest) true).data = []
      ∧ (newBuffer (c :: rest) true).length = rest.length + 1
      ∧ Unmarshal (fuel + 1) (c :: rest) true = Outcome.panicked
      ∧ Unmarshal (fuel + 1) (ascii "1") false
        = Outcome.returned (some (Node.mk none (ascii "1") (0, 1) NodeType.Numeric [] none))
            none := by
  refine ⟨rfl, rfl, ?_, rfl⟩
  simp [Unmarshal, Unmarshal.base, newBuffer, buffer.first, buffer.firstLoop]

/-- C10: round trip. For every input and either value of `clone`, when
`Unmarshal` returns no error and a non-nil root `r`, the in-place `Unmarshal`
of the raw source text of `r` returns again no error and a root of the same
kind, whose borders span that entire text and whose raw source text is that
text. -/
theorem C10_round_trip (fuel : Nat) (body : List Nat) (clone : Bool) (r : Node)
    (h : Unmarshal fuel body clone = Outcome.returned (some r) none) (fuel2 : Nat) :
    ∃ r1 : Node,
      Unmarshal (fuel2 + 2) r.Source false = Outcome.returned (some r1) none
        ∧ r1.Type = r.Type
        ∧ r1.borders = (0, r.Source.length)
        ∧ r1.Source = r.Source := by
  cases clone with
  | true => exact absurd h (clone_no_root fuel body r none)
  | false =>
    exact base_roundtrip [] none fuel (newBuffer body false) none r (newBuffer_inPlace body)
      (by intro c hc; cases hc) h fuel2

/-- Witness of C10 at the input `"good \"cat\""` between blanks, whose root is
the String node of borders `(2, 16)`. -/
theorem C10_round_trip_witness :
    Unmarshal 2 (ascii "  \"good \\\"cat\\\"\" ") false
        = Outcome.returned
            (some (Node.mk none (ascii "  \"good \\\"cat\\\"\" ") (2, 16) NodeType.String [] none))
            none
      ∧ ∃ r1 : Node,
        Unmarshal 2 (ascii "\"good \\\"cat\\\"\"") false = Outcome.returned (some r1) none
          ∧ r1.Type = NodeType.String
          ∧ r1.borders = (0, 14)
          ∧ r1.Source = ascii "\"good \\\"cat\\\"\"" :=
  ⟨rfl, C10_round_trip 2 (ascii "  \"good \\\"cat\\\"\" ") false
    (Node.mk none (ascii "  \"good \\\"cat\\\"\" ") (2, 16) NodeType.String [] none) rfl 0⟩

/-- C11: for every alias and every registry, `NewFunction` returns an error
exactly when the lower-cased alias is no key of the registry, and then it
returns no token; otherwise it returns the token whose `Alias` is the
lower-cased alias and whose `Arguments` is the given one, with no error. Two
aliases with the same lower-cased form give the same result. -/
theorem C11_newFunction_lookup {A Fn : Type} (ToLower : String → String)
    (Functions : String → Option (Option Fn)) (alias1 : String) (arguments : Option A) :
    ((tokens.NewFunction ToLower Functions alias1 arguments).2 ≠ none
        ↔ Functions (ToLower alias1) = none)
      ∧ ((tokens.NewFunction ToLower Functions alias1 arguments).2 ≠ none →
          (tokens.NewFunction ToLower Functions alias1 arguments).1 = none)
      ∧ (Functions (ToLower alias1) ≠ none →
          tokens.NewFunction ToLower Functions alias1 arguments
            = (some { Alias := ToLower alias1, Arguments := arguments }, none))
      ∧ (∀ alias2 : String, ToLower alias2 = ToLower alias1 →
          tokens.NewFunction ToLower Functions alias2 arguments
            = tokens.NewFunction ToLower Functions alias1 arguments) := by
  refine ⟨?_, ?_, ?_, ?_⟩
  · cases h : Functions (ToLower alias1) with
    | none => simp [newFunction_absent ToLower Functions alias1 arguments h]
    | some f => simp [newFunction_present ToLower Functions alias1 arguments h]
  · cases h : Functions (ToLower alias1) with
    | none => simp [newFunction_absent ToLower Functions alias1 arguments h]
    | some f => simp [newFunction_present ToLower Functions alias1 arguments h]
  · intro hne
    cases h : Functions (ToLower alias1) with
    | none => exact absurd h hne
    | some f => exact newFunction_present ToLower Functions alias1 arguments h
  · intro alias2 h2
    simp only [tokens.NewFunction, h2]

/-- C12: a token that `NewFunction` returned with no error has an `Alias` that
is a key of the registry, and with the same registry `Function()` returns the
entry stored under that key. -/
theorem C12_function_resolves {A Fn : Type} (ToLower : String → String)
    (Functions : String → Option (Option Fn)) (alias1 : String) (arguments : Option A)
    (t : tokens.Function A)
    (h : tokens.NewFunction ToLower Functions alias1 arguments = (some t, none)) :
    ∃ f : Option Fn, Functions t.Alias = some f
      ∧ tokens.Function.Function Functions (some t) = f := by
  cases hl : Functions (ToLower alias1) with
  | none =>
    rw [newFunction_absent ToLower Functions alias1 arguments hl] at h
    simp at h
  | some f =>
    rw [newFunction_present ToLower Functions alias1 arguments hl] at h
    simp only [Prod.mk.injEq, Option.some.injEq, and_true] at h
    subst h
    exact ⟨f, hl, by simp [tokens.Function.Function, hl]⟩

/-- Witness of C12 with lower-casing of ASCII text and a registry that holds
`avg` only: the token made from `AVG`. -/
theorem C12_function_resolves_witness :
    tokens.NewFunction tokens.asciiToLower
        (fun k => if k = "avg" then some (some (7 : Nat)) else none) "AVG" (none : Option Nat)
        = (some { Alias := "avg", Arguments := none }, none)
      ∧ ∃ f : Option Nat,
        (fun k => if k = "avg" then some (some (7 : Nat)) else none) "avg" = some f
          ∧ tokens.Function.Function (fun k => if k = "avg" then some (some (7 : Nat)) else none)
              (some ({ Alias := "avg", Arguments := none } : tokens.Function Nat)) = f :=
  ⟨by decide, C12_function_resolves tokens.asciiToLower
    (fun k => if k = "avg" then some (some (7 : Nat)) else none)
    "AVG" none { Alias := "avg", Arguments := none } (by decide)⟩

/-- C13: on a nil token, `String()` and `Token()` return the text
`Function(<nil>, <nil>)` and `Function()` returns the nil function, whatever
the registry holds. -/
theorem C13_nil_token {A Fn : Type} (argumentsString : Option A → String)
    (Functions : String → Option (Option Fn)) :
    tokens.Function.String argumentsString none = "Function(<nil>, <nil>)"
      ∧ tokens.Function.Token argumentsString none = "Function(<nil>, <nil>)"
      ∧ tokens.Function.Function Functions (none : Option (tokens.Function A)) = none :=
  ⟨rfl, rfl, rfl⟩

/-- C14: for each of the words `null`, `true`, `false` and every in-place
buffer, the literal scanner (`null()`, `true()`, `false()` are `word()` on
these words) gives no error exactly when the bytes from the cursor on start
with the word spelled with every letter in lower or upper case. After a part
of the word, a byte that is neither case of the next letter gives the
`UnexpectedSymbol` error of that byte and its position, and the end of the
input gives `UnexpectedEnd`. -/
theorem C14_literal_scanner (word : List Nat)
    (hword : word = _null ∨ word = _true ∨ word = _false) (b : buffer) (hb : b.InPlace) :
    (b.null = b.word _null ∧ b.true = b.word _true ∧ b.false = b.word _false)
      ∧ ((∃ b1 : buffer, b.word word = some (b1, none))
          ↔ ∃ tok r : List Nat, b.rest = tok ++ r ∧ SpelledAnyCase tok word)
      ∧ (∀ (pre r : List Nat) (c x : Nat), b.rest = pre ++ c :: r →
          SpelledAnyCase pre (word.take pre.length) → word[pre.length]? = some x →
          ¬ (c = x ∨ c + 32 = x) →
          b.word word
            = some (b.advance pre.length, some (errorSymbol c (b.index + pre.length))))
      ∧ (∀ pre : List Nat, b.rest = pre → pre.length < word.length →
          SpelledAnyCase pre (word.take pre.length) →
          b.word word = some (b.advance pre.length, some (errorEOF (b.index + pre.length)))) := by
  have hx : ∀ x ∈ word, 32 ≤ x ∧ x < 256 := by
    rcases hword with h | h | h <;> subst h <;> simp [_null, _true, _false]
  have hne : word ≠ [] := by
    rcases hword with h | h | h <;> subst h <;> simp [_null, _true, _false]
  have hxt : ∀ k : Nat, ∀ x ∈ word.take k, 32 ≤ x ∧ x < 256 :=
    fun k x hxk => hx x (List.mem_of_mem_take hxk)
  refine ⟨⟨rfl, rfl, rfl⟩, ⟨?_, ?_⟩, ?_, ?_⟩
  · rintro ⟨b1, h⟩
    obtain ⟨tok, r, hr, hm, -⟩ := word_inv hne hb h
    exact ⟨tok, r, hr, code_spelled hm hx⟩
  · rintro ⟨tok, r, hr, hs⟩
    exact ⟨_, word_match hb hr (spelled_code hs hx) hne⟩
  · intro pre r c x hr hs hget hcx
    have hxm : x ∈ word := List.getElem?_mem hget
    have hxb := hx x hxm
    have hcx2 : ¬ (c = x ∨ c = (x + 256 - 32) % 256) := by omega
    exact wordLoop_mismatch word (word.take pre.length) pre (spelled_code hs (hxt _)) b 0 c x r
      (word.drop (pre.length + 1)) (take_drop_letter hget) hb hr hcx2
  · intro pre hr hlen hs
    have hget : word[pre.length]? = some word[pre.length] := List.getElem?_eq_getElem hlen
    exact wordLoop_short word (word.take pre.length) pre (spelled_code hs (hxt _)) b 0
      word[pre.length] (word.drop (pre.length + 1)) (take_drop_letter hget) hb hr

/-- Witness of C14: on `tre` the word `true` fails at the byte `e` at position 2,
on `Nul` the word `null` fails at the end of the input, position 3. -/
theorem C14_literal_scanner_witness :
    (⟨ascii "tre", 3, 0⟩ : buffer).word _true
        = some (⟨ascii "tre", 3, 2⟩, some (errorSymbol 101 2))
      ∧ (⟨ascii "Nul", 3, 0⟩ : buffer).word _null
        = some (⟨ascii "Nul", 3, 3⟩, some (errorEOF 3)) :=
  ⟨(C14_literal_scanner _true (Or.inr (Or.inl rfl)) ⟨ascii "tre", 3, 0⟩ rfl).2.2.1
      (ascii "tr") [] 101 117 rfl (by simp [SpelledAnyCase, ascii, _true]) rfl (by decide),
    (C14_literal_scanner _null (Or.inl rfl) ⟨ascii "Nul", 3, 0⟩ rfl).2.2.2
      (ascii "Nul") rfl (by decide) (by simp [SpelledAnyCase, ascii, _null])⟩

/-- C15: the claim says that a second `.` in the mantissa is rejected. In the
code the `.` case runs `find &= 2` on a mask whose bit 2 is clear, so the bit
is never set: after every run of number bytes that `numeric()` steps over it
steps over a `.` as well. On `1.2.3` it reaches the end of the input in the
successful state and `Unmarshal` returns the Numeric node of the whole
text. -/
theorem C15_second_dot_accepted :
    (∀ (tok : List Nat) (f : Nat), numRun 0 tok = some f →
        f &&& 2 = 0 ∧ numStep f 46 = some 0)
      ∧ (⟨ascii "1.2.3", 5, 0⟩ : buffer).numeric
        = some (⟨ascii "1.2.3", 5, 5⟩, some Error.EOF)
      ∧ (∀ fuel : Nat, Unmarshal (fuel + 1) (ascii "1.2.3") false
        = Outcome.returned
            (some (Node.mk none (ascii "1.2.3") (0, 5) NodeType.Numeric [] none)) none) :=
  ⟨fun tok f h => numStep_dot_of_mask (numRun_mask tok 0 f h (Or.inl rfl)), rfl, fun _ => rfl⟩

/-- C16: the claim says that a sign is accepted only as the first byte or just
after `e`/`E`. In the code the mask is 0 again after every `.`, so a sign just
after a `.` is stepped over like a leading sign. On `1.-2` and on `1.5e3.+7`
`numeric()` reaches the end of the input in the successful state and
`Unmarshal` returns the Numeric node of the whole text. -/
theorem C16_sign_after_dot_accepted :
    (∀ (tok : List Nat) (f : Nat), numRun 0 (tok ++ [46]) = some f →
        f = 0 ∧ numStep f 43 = some 1 ∧ numStep f 45 = some 1)
      ∧ (⟨ascii "1.-2", 4, 0⟩ : buffer).numeric
        = some (⟨ascii "1.-2", 4, 4⟩, some Error.EOF)
      ∧ (⟨ascii "1.5e3.+7", 8, 0⟩ : buffer).numeric
        = some (⟨ascii "1.5e3.+7", 8, 8⟩, some Error.EOF)
      ∧ (∀ fuel : Nat, Unmarshal (fuel + 1) (ascii "1.-2") false
        = Outcome.returned
            (some (Node.mk none (ascii "1.-2") (0, 4) NodeType.Numeric [] none)) none) := by
  refine ⟨?_, rfl, rfl, fun _ => rfl⟩
  intro tok f h
  obtain ⟨f1, h1, h2⟩ := numRun_snoc h
  have hdot := (numStep_dot_of_mask (numRun_mask tok 0 f1 h1 (Or.inl rfl))).2
  rw [hdot] at h2
  simp only [Option.some.injEq] at h2
  subst h2
  exact ⟨rfl, by decide, by decide⟩

/-- C17 as stated is false at `1e`: `numeric()` steps over both bytes without
a rule violation and a digit was consumed, yet the call fails with
`UnexpectedEnd` at position 2 and not with the end-of-input state. -/
theorem C17_counterexample :
    numRun 0 (ascii "1e") = some 8
      ∧ (∃ x ∈ ascii "1e", 48 ≤ x ∧ x ≤ 57)
      ∧ (⟨ascii "1e", 2, 0⟩ : buffer).numeric
        = some (⟨ascii "1e", 2, 2⟩, some (errorEOF 2))
      ∧ (⟨ascii "1e", 2, 0⟩ : buffer).numeric
        ≠ some (⟨ascii "1e", 2, 2⟩, some Error.EOF) := by
  refine ⟨rfl, ⟨49, by decide, by decide⟩, rfl, by decide⟩

/-- C17, amended: when `numeric()` steps over all bytes up to the end of the
input without a rule violation, the call ends in the successful end-of-input
state (`io.EOF`, cursor at the end) if the last byte is a digit, and it fails
with `UnexpectedEnd` if no digit was consumed or if the last byte is an
exponent marker or a sign. -/
theorem C17_end_of_input (b : buffer) (tok : List Nat) (f : Nat) (hb : b.InPlace)
    (hr : b.rest = tok) (hrun : numRun 0 tok = some f) :
    ((∃ (pre : List Nat) (d : Nat), tok = pre ++ [d] ∧ 48 ≤ d ∧ d ≤ 57) →
        b.numeric = some (b.advance tok.length, some Error.EOF))
      ∧ ((∀ x ∈ tok, ¬ (48 ≤ x ∧ x ≤ 57)) →
        b.numeric = some (b.advance tok.length, some (errorEOF (b.index + tok.length))))
      ∧ ((∃ (pre : List Nat) (c : Nat), tok = pre ++ [c]
          ∧ (c = 101 ∨ c = 69 ∨ c = 43 ∨ c = 45)) →
        b.numeric = some (b.advance tok.length, some (errorEOF (b.index + tok.length)))) := by
  have hend := numeric_at_end hb hr hrun
  refine ⟨?_, ?_, ?_⟩
  · rintro ⟨pre, d, rfl, hd⟩
    obtain ⟨f1, h1, h2⟩ := numRun_snoc hrun
    have hbit := (numStep_digit_bit h2 (numRun_mask pre 0 f1 h1 (Or.inl rfl))).mpr hd
    rw [hend, if_pos hbit]
  · intro hnd
    have hf := numRun_no_digit tok 0 f hrun (Or.inl rfl) hnd
    have hbit : ¬ (f &&& 4 ≠ 0) := by
      rcases hf with rfl | rfl | rfl | rfl <;> decide
    rw [hend, if_neg hbit]
  · rintro ⟨pre, c, rfl, hc⟩
    obtain ⟨f1, h1, h2⟩ := numRun_snoc hrun
    have hbit := (numStep_digit_bit h2 (numRun_mask pre 0 f1 h1 (Or.inl rfl))).not.mpr
      (by omega)
    rw [hend, if_neg hbit]

/-- Witness of C17 at the input `-1e3`, whose last byte is a digit. -/
theorem C17_end_of_input_witness :
    (⟨ascii "-1e3", 4, 0⟩ : buffer).numeric = some (⟨ascii "-1e3", 4, 4⟩, some Error.EOF) :=
  (C17_end_of_input ⟨ascii "-1e3", 4, 0⟩ (ascii "-1e3") 12 rfl rfl rfl).1
    ⟨ascii "-1e", 51, rfl, by decide, by decide⟩

/-- C18: for every in-place buffer, whatever byte the cursor `p` is on,
`string()` gives no error exactly when some position `q > p` holds a `"` that
is immediately preceded by an even number of consecutive backslashes; it then
leaves the cursor on the smallest such `q`, and otherwise it fails with
`UnexpectedEnd`. -/
theorem C18_string_terminator (b : buffer) (hb : b.InPlace) :
    ((∃ b1 : buffer, b.string = some (b1, none))
        ↔ ∃ q : Nat, b.index < q ∧ Unescaped quotes b.data q)
      ∧ (∀ q : Nat, b.index < q → Unescaped quotes b.data q →
          (∀ j : Nat, b.index < j → j < q → ¬ Unescaped quotes b.data j) →
          b.string = some ({ b with index := q }, none))
      ∧ ((∀ q : Nat, b.index < q → ¬ Unescaped quotes b.data q) →
          ∃ i : Nat, b.string = some ({ b with index := i }, some (errorEOF i))) := by
  refine ⟨⟨?_, ?_⟩, fun q hq hun hmin => string_found hb hq hun hmin,
    fun hno => string_not_found hb hno⟩
  · rintro ⟨b1, h⟩
    by_contra hcon
    obtain ⟨i, hi⟩ := string_not_found hb (fun q hq hun => hcon ⟨q, hq, hun⟩)
    rw [hi] at h
    simp at h
  · intro hex
    have hspec := Nat.find_spec hex
    exact ⟨_, string_found hb hspec.1 hspec.2
      (fun j hj hjq hun => Nat.find_min hex hjq ⟨hj, hun⟩)⟩

/-- Witness of C18 at the text `"a\"b\\" x` with the cursor on the opening
quote: the quote at position 3 is escaped, the one at position 7 is not. -/
theorem C18_string_terminator_witness :
    (⟨ascii "\"a\\\"b\\\\\" x", 10, 0⟩ : buffer).string
      = some (⟨ascii "\"a\\\"b\\\\\" x", 10, 7⟩, none) :=
  (C18_string_terminator ⟨ascii "\"a\\\"b\\\\\" x", 10, 0⟩ rfl).2.1 7 (by decide) (by decide)
    (by
      intro j h1 h2
      have hj : j = 1 ∨ j = 2 ∨ j = 3 ∨ j = 4 ∨ j = 5 ∨ j = 6 := by
        simp only [] at h1; omega
      rcases hj with rfl | rfl | rfl | rfl | rfl | rfl <;> decide)

/-- C19: for every in-place buffer with the cursor within the length: the
bytes from the cursor on are whitespace throughout, or whitespace up to a
first byte that is none. In the second case `first()` returns that byte with
no error and leaves the cursor on it, having moved over the whitespace before
it only, and `first()` called again returns the same byte and the same cursor.
In the first case `first()` gives `io.EOF` and leaves the cursor at
`length`. -/
theorem C19_first (b : buffer) (hb : b.InPlace) (hi : b.index ≤ b.length) :
    (Whitespace b.rest ∨ ∃ (ws : List Nat) (c : Nat) (r : List Nat),
        b.rest = ws ++ c :: r ∧ Whitespace ws ∧ ¬ (c = 32 ∨ c = 10 ∨ c = 13 ∨ c = 9))
      ∧ (∀ (ws : List Nat) (c : Nat) (r : List Nat), b.rest = ws ++ c :: r → Whitespace ws →
          ¬ (c = 32 ∨ c = 10 ∨ c = 13 ∨ c = 9) →
          b.first = some ({ b with index := b.index + ws.length }, c, none)
            ∧ ({ b with index := b.index + ws.length } : buffer).first
              = some ({ b with index := b.index + ws.length }, c, none))
      ∧ (Whitespace b.rest →
          b.first = some ({ b with index := b.length }, 0, some Error.EOF)) := by
  refine ⟨whitespace_or_first b.rest, ?_, ?_⟩
  · intro ws c r hr hws hc
    refine ⟨first_found hb hr hws hc, ?_⟩
    have hr2 : (b.advance ws.length).rest = [] ++ c :: r := by
      simpa using rest_after_ws hr
    have h2 := first_found (inPlace_advance hb ws.length) hr2 (by intro y hy; simp at hy) hc
    simpa using h2
  · intro hws
    have h := first_eof hb rfl hws
    have hlen : b.index + b.rest.length = b.length := by rw [rest_length hb]; omega
    rw [h, advance_eq_with, hlen]

/-- Witness of C19 at the text `1 \n x` with the cursor just after the digit. -/
theorem C19_first_witness :
    (⟨ascii "1 \n x", 5, 1⟩ : buffer).first = some (⟨ascii "1 \n x", 5, 4⟩, 120, none)
      ∧ (⟨ascii "1 \n x", 5, 4⟩ : buffer).first = some (⟨ascii "1 \n x", 5, 4⟩, 120, none) :=
  (C19_first ⟨ascii "1 \n x", 5, 1⟩ rfl (by decide)).2.1 (ascii " \n ") 120 [] rfl
    (by decide) (by decide)

/-- C20: the claim says that `scan(s, true)` reports the range from the cursor
to the terminator with leading and trailing whitespace removed, also when
there is whitespace between other bytes. In the code a whitespace byte after
the first other byte does not move `to`, and a later byte moves it by one
only: on `a b,c` with terminator `,` the span is `[0, 2)`, the text `a `
instead of `a b`, and on ` a  b c ,x` it is `[1, 4)` instead of `[1, 7)`.
Without whitespace between other bytes, as on `  ab  ,c`, the span `[2, 4)` is
the trimmed range. -/
theorem C20_scan_inner_whitespace :
    (⟨ascii "a b,c", 5, 0⟩ : buffer).scan 44 Bool.true
        = some (⟨ascii "a b,c", 5, 4⟩, 0, 2, none)
      ∧ (⟨ascii " a  b c ,x", 10, 0⟩ : buffer).scan 44 Bool.true
        = some (⟨ascii " a  b c ,x", 10, 9⟩, 1, 4, none)
      ∧ (⟨ascii "  ab  ,c", 8, 0⟩ : buffer).scan 44 Bool.true
        = some (⟨ascii "  ab  ,c", 8, 7⟩, 2, 4, none) :=
  ⟨rfl, rfl, rfl⟩

/-- C21 as stated is false for the literal and the string scanners: on `null`
the call `null()` succeeds and leaves the cursor at 3, on the last letter of
the token and not at 4, and on `"a" ` the call `string()` succeeds and leaves
the cursor at 2, on the closing quote and not at 3. -/
theorem C21_counterexample :
    (⟨ascii "null", 4, 0⟩ : buffer).null = some (⟨ascii "null", 4, 3⟩, none)
      ∧ (ascii "null")[3]? = some 108
      ∧ (⟨ascii "\"a\" ", 4, 0⟩ : buffer).string = some (⟨ascii "\"a\" ", 4, 2⟩, none)
      ∧ (ascii "\"a\" ")[2]? = some 34 :=
  ⟨rfl, rfl, rfl, rfl⟩

/-- C21, amended: on an in-place buffer, after `numeric()` ends with no error
or with `io.EOF` the cursor is just after the last byte of the token it
consumed, where the token is the longest run of number bytes (digit, `.`, `+`,
`-`, `e`, `E`) that starts at the old cursor: every byte of the token is a
number byte and the cursor is at the end of the data (with `io.EOF`) or on a
byte that is no number byte (with no error). After `null()`, `true()` or
`false()` gives no error the cursor is on the last letter of the word, that is
at the old cursor plus the length of the word minus one. After `string()` gives
no error the cursor is on the closing quote, the first unescaped quote after
the old cursor. No scanner changes the data or the length. -/
theorem C21_cursor_after_scanner (b b1 : buffer) (hb : b.InPlace) :
    (∀ err : Option Error, b.numeric = some (b1, err) → (err = none ∨ err = some Error.EOF) →
        ∃ tok : List Nat, tok ≠ [] ∧ (∀ x ∈ tok, NumberByte x) ∧ b.rest = tok ++ b1.rest
          ∧ ((err = some Error.EOF ∧ b1.rest = [])
            ∨ (err = none ∧ ∃ (c : Nat) (r : List Nat), b1.rest = c :: r ∧ ¬ NumberByte c))
          ∧ b1.data = b.data ∧ b1.length = b.length
          ∧ b1.index = b.index + tok.length)
      ∧ (∀ word : List Nat, (word = _null ∨ word = _true ∨ word = _false) →
          b.word word = some (b1, none) →
          ∃ tok r : List Nat, b.rest = tok ++ r ∧ SpelledAnyCase tok word
            ∧ b1.data = b.data ∧ b1.length = b.length
            ∧ b1.index + 1 = b.index + tok.length)
      ∧ (b.string = some (b1, none) →
          b1.data = b.data ∧ b1.length = b.length
            ∧ b.index < b1.index ∧ b.data[b1.index]? = some 34
            ∧ Unescaped quotes b.data b1.index
            ∧ ∀ j : Nat, b.index < j → j < b1.index → ¬ Unescaped quotes b.data j) := by
  refine ⟨?_, ?_, ?_⟩
  · intro err h herr
    obtain ⟨pre, d, hr, rfl, hall, -, hend⟩ := numeric_success hb h herr
    exact ⟨pre ++ [d], by simp, hall, hr, hend, rfl, rfl, rfl⟩
  · intro word hword h
    have hx : ∀ x ∈ word, 32 ≤ x ∧ x < 256 := by
      rcases hword with h | h | h <;> subst h <;> simp [_null, _true, _false]
    have hne : word ≠ [] := by
      rcases hword with h | h | h <;> subst h <;> simp [_null, _true, _false]
    obtain ⟨tok, r, hr, hm, rfl⟩ := word_inv hne hb h
    have hlen : tok.length = word.length := hm.length_eq
    have hpos : 0 < word.length := List.length_pos.mpr hne
    refine ⟨tok, r, hr, code_spelled hm hx, rfl, rfl, ?_⟩
    simp only [advance_index]
    omega
  · intro h
    obtain ⟨h0, h1, h2, h3⟩ := string_success_pos hb h
    exact ⟨by rw [h0], by rw [h0], h1, h2.1, h2, h3⟩

/-- Witness of C21 at the text `123 x` with the cursor at 0: `numeric()` stops
with no error at 3, on the blank after the token `123`. -/
theorem C21_cursor_after_scanner_witness :
    ∃ tok : List Nat, tok ≠ [] ∧ (∀ x ∈ tok, NumberByte x)
      ∧ (⟨ascii "123 x", 5, 0⟩ : buffer).rest = tok ++ (⟨ascii "123 x", 5, 3⟩ : buffer).rest
      ∧ (((none : Option Error) = some Error.EOF ∧ (⟨ascii "123 x", 5, 3⟩ : buffer).rest = [])
        ∨ ((none : Option Error) = none ∧ ∃ (c : Nat) (r : List Nat),
            (⟨ascii "123 x", 5, 3⟩ : buffer).rest = c :: r ∧ ¬ NumberByte c))
      ∧ ascii "123 x" = ascii "123 x" ∧ 5 = 5
      ∧ 3 = 0 + tok.length :=
  (C21_cursor_after_scanner ⟨ascii "123 x", 5, 0⟩ ⟨ascii "123 x", 5, 3⟩ rfl).1 none rfl
    (Or.inl rfl)

/-- C22: the buffer of `newBuffer(body, false)` satisfies the invariant
(`length` is the length of the data, cursor 0), and on every buffer that
satisfies the invariant `0 <= index <= length` each scanner operation
(`first`, `step`, `next`, `scan`, `skip`, `backslash`, `numeric`, `string`,
`null`, `true`, `false`) returns, with or without error, without a read outside
the positions `[0, length)` (a read outside them would make the operation give
`none`), and leaves a buffer with the same data and length that satisfies the
invariant again. -/
theorem C22_buffer_invariant (b : buffer) (hv : b.Valid) :
    (∀ body : List Nat, (newBuffer body false).Valid ∧ (newBuffer body false).index = 0
        ∧ (newBuffer body false).length = body.length)
      ∧ (∃ (b1 : buffer) (c : Nat) (e : Option Error), b.first = some (b1, c, e) ∧ b.Keeps b1)
      ∧ b.Keeps (b.step).1
      ∧ (∃ (b1 : buffer) (c : Nat) (e : Option Error), b.next = some (b1, c, e) ∧ b.Keeps b1)
      ∧ (∀ (s : Nat) (skip : Bool), ∃ (b1 : buffer) (f t : Int) (e : Option Error),
          b.scan s skip = some (b1, f, t, e) ∧ b.Keeps b1)
      ∧ (∀ s : Nat, ∃ (b1 : buffer) (found : Bool), b.skip s = some (b1, found) ∧ b.Keeps b1)
      ∧ (∃ r : Bool, b.backslash = some r)
      ∧ (∃ (b1 : buffer) (e : Option Error), b.numeric = some (b1, e) ∧ b.Keeps b1)
      ∧ (∃ (b1 : buffer) (e : Option Error), b.string = some (b1, e) ∧ b.Keeps b1)
      ∧ (∃ (b1 : buffer) (e : Option Error), b.null = some (b1, e) ∧ b.Keeps b1)
      ∧ (∃ (b1 : buffer) (e : Option Error), b.true = some (b1, e) ∧ b.Keeps b1)
      ∧ (∃ (b1 : buffer) (e : Option Error), b.false = some (b1, e) ∧ b.Keeps b1) :=
  ⟨fun body => ⟨⟨rfl, Nat.zero_le _⟩, rfl, rfl⟩, first_safe hv, step_safe hv, next_safe hv,
    fun s skip => scan_safe hv s skip, fun s => skip_safe hv s, backslash_safe hv,
    numeric_safe hv, string_safe hv, word_safe hv (by decide), word_safe hv (by decide),
    word_safe hv (by decide)⟩

/-- Witness of C22 at the buffer of `newBuffer` on the text `"a\"`, on which
`string()` fails at the end of the input: the cursor it leaves is within the
length. -/
theorem C22_buffer_invariant_witness :
    ∃ (b1 : buffer) (e : Option Error),
      (newBuffer (ascii "\"a\\\"") false).string = some (b1, e)
        ∧ (newBuffer (ascii "\"a\\\"") false).Keeps b1 :=
  (C22_buffer_invariant (newBuffer (ascii "\"a\\\"") false)
    ⟨rfl, Nat.zero_le _⟩).2.2.2.2.2.2.2.2.1

/-- C23: the claim says that every iteration of the main loop leaves the loop
or strictly advances the cursor, also on `{` and `[`. In the code these two
cases are empty: with the cursor on `[` or `{`, `first()` leaves the cursor
where it is, the iteration ends in the same state it began in, and the loop is
still running after any number of iterations. -/
theorem C23_open_byte_no_progress (c : Nat) (r : List Nat) (hc : c = bracketL ∨ c = bracesL)
    (buf : buffer) (hb : buf.InPlace) (hr : buf.rest = c :: r) (current : Option Node)
    (fuel : Nat) :
    buf.first = some (buf, c, none)
      ∧ Unmarshal.base [] none (fuel + 1) buf current = Unmarshal.base [] none fuel buf current
      ∧ Unmarshal.base [] none fuel buf current = Outcome.running := by
  have hc2 : ¬ (c = 32 ∨ c = 10 ∨ c = 13 ∨ c = 9) := by
    rcases hc with h | h <;> simp [h, bracketL, bracesL]
  have hr2 : buf.rest = [] ++ c :: r := by simpa using hr
  have hfirst : buf.first = some (buf, c, none) := by
    have h := first_found hb hr2 (by intro y hy; simp at hy) hc2
    simpa using h
  refine ⟨hfirst, ?_, base_open_running [] none c r hc fuel buf current [] hb hr2
    (by intro y hy; simp at hy)⟩
  conv_lhs => rw [Unmarshal.base, hfirst]
  rcases hc with h | h
  · subst h
    simp [bracketL, bracesL]
  · subst h
    simp

/-- Witness of C23 at the input `[1]`. -/
theorem C23_open_byte_no_progress_witness :
    (newBuffer (ascii "[1]") false).first = some (newBuffer (ascii "[1]") false, 91, none)
      ∧ Unmarshal.base [] none (7 + 1) (newBuffer (ascii "[1]") false) none
        = Unmarshal.base [] none 7 (newBuffer (ascii "[1]") false) none
      ∧ Unmarshal.base [] none 7 (newBuffer (ascii "[1]") false) none = Outcome.running :=
  C23_open_byte_no_progress 91 (ascii "1]") (Or.inl rfl) (newBuffer (ascii "[1]") false) rfl rfl
    none 7

/-- C24: whenever `numeric()` on an in-place buffer ends with no error or with
`io.EOF`, the cursor has moved forward, every byte it moved over is a digit,
`.`, `+`, `-`, `e` or `E`, the last of them is a digit, and the cursor is at
`length` (with `io.EOF`) or on a byte outside that alphabet (with no
error). -/
theorem C24_numeric_token (b b1 : buffer) (err : Option Error) (hb : b.InPlace)
    (h : b.numeric = some (b1, err)) (herr : err = none ∨ err = some Error.EOF) :
    b1.data = b.data ∧ b1.length = b.length ∧ b.index < b1.index
      ∧ (∀ i : Nat, b.index ≤ i → i < b1.index → ∃ x : Nat, b.data[i]? = some x ∧ NumberByte x)
      ∧ (∃ d : Nat, b.data[b1.index - 1]? = some d ∧ 48 ≤ d ∧ d ≤ 57)
      ∧ ((err = some Error.EOF ∧ b1.index = b.length)
        ∨ (err = none ∧ ∃ x : Nat, b.data[b1.index]? = some x ∧ ¬ NumberByte x)) := by
  obtain ⟨pre, d, hr, rfl, hall, hd, hend⟩ := numeric_success hb h herr
  have hlen : (pre ++ [d]).length = pre.length + 1 := by simp
  refine ⟨rfl, rfl, by simp, ?_, ?_, ?_⟩
  · intro i hi1 hi2
    obtain ⟨j, rfl⟩ : ∃ j, i = b.index + j := ⟨i - b.index, by omega⟩
    have hj : j < (pre ++ [d]).length := by
      simp only [advance_index] at hi2; omega
    rw [getElem?_of_rest hr j hj, List.getElem?_eq_getElem hj]
    exact ⟨_, rfl, hall _ (List.getElem_mem hj)⟩
  · refine ⟨d, ?_, hd⟩
    have hidx : (b.advance (pre ++ [d]).length).index - 1 = b.index + pre.length := by
      simp only [advance_index, hlen]; omega
    rw [hidx, getElem?_of_rest hr pre.length (by omega)]
    simp
  · rcases hend with ⟨he, hrest⟩ | ⟨he, c, r, hrest, hc⟩
    · left
      refine ⟨he, ?_⟩
      have hl : b.data.length - b.index = (pre ++ [d]).length := by
        have := congrArg List.length hr
        rw [hrest] at this
        simpa [buffer.rest] using this
      have hb2 := hb
      unfold buffer.InPlace at hb2
      simp only [advance_index]
      omega
    · right
      exact ⟨he, c, getElem?_rest_head hrest, hc⟩

/-- Witness of C24 at the text `-1.5e3,` with the cursor at 0: `numeric()` stops
on the comma at position 6 with no error. -/
theorem C24_numeric_token_witness :
    (⟨ascii "-1.5e3,", 7, 0⟩ : buffer).numeric = some (⟨ascii "-1.5e3,", 7, 6⟩, none)
      ∧ (0 : Nat) < 6
      ∧ (∃ d : Nat, (ascii "-1.5e3,")[6 - 1]? = some d ∧ 48 ≤ d ∧ d ≤ 57)
      ∧ ((none = some Error.EOF ∧ 6 = 7)
        ∨ ((none : Option Error) = none
          ∧ ∃ x : Nat, (ascii "-1.5e3,")[6]? = some x ∧ ¬ NumberByte x)) :=
  have h := C24_numeric_token ⟨ascii "-1.5e3,", 7, 0⟩ ⟨ascii "-1.5e3,", 7, 6⟩ none rfl rfl
    (Or.inl rfl)
  ⟨rfl, h.2.2.1, h.2.2.2.2.1, h.2.2.2.2.2⟩

end Ajson
